import Mathlib

/-!
Verification development for the rrrgo interval-hierarchy change-event index.

The Go source is shallowly embedded: epochs (Go `float64` seconds quantized to
10-microsecond units) are modelled as exact rationals, so the 10 µs increment
is exactly `1/100000`; IEEE-754 rounding of individual additions is not
modelled.  Stateful operations become pure functions on explicit state, and
operating-system effects (stat results, mkdir outcomes, clock readings,
process liveness) become explicit oracle parameters.  Go `map` iteration order
is unspecified; the embedding materializes maps in insertion order, and the
theorems proved about map-derived data are insensitive to that order.
-/

namespace Rrr

/-- Epoch model: seconds since the Unix epoch as an exact rational
(`recentfile/epoch.go`, type `Epoch float64`).  The value 0 is the "unset"
sentinel, exactly as `IsZero` treats it in Go. -/
abbrev Epoch := ℚ

/-- Model of `EpochIncreaseABit` (`recentfile/epoch.go`): add 10 microseconds. -/
def epochIncreaseABit (e : Epoch) : Epoch := e + 1 / 100000

/-- Event record (`recentfile/recentfile.go`, `type Event`). -/
structure Event where
  epoch : Epoch
  path : String
  type : String
deriving DecidableEq, Repr

/-- Batch-update item (`recentfile/recentfile.go`, `type BatchItem`).  An
`epoch` of 0 means "no dirty epoch supplied". -/
structure BatchItem where
  path : String
  type : String
  epoch : Epoch
deriving DecidableEq, Repr

/-- Merged-metadata record (`recentfile/recentfile.go`, `type MergedInfo`);
only the epoch participates in the algorithms. -/
structure MergedInfo where
  epoch : Epoch
deriving DecidableEq, Repr

/-- ZSeconds sentinel (`recentfile/recentfile.go`): `math.MaxInt64`. -/
def ZSeconds : ℤ := 9223372036854775807

/-- Seconds per unit (`recentfile/recentfile.go`, interval constants). -/
def unitSecsFor (c : Char) : ℤ :=
  if c = 's' then 1
  else if c = 'm' then 60
  else if c = 'h' then 3600
  else if c = 'd' then 86400
  else if c = 'W' then 604800
  else if c = 'M' then 2592000
  else if c = 'Q' then 7776000
  else if c = 'Y' then 31557600
  else 0

/-- Numeric value of a digit string (the `%d` scan in `IntervalSecsFor`). -/
def digitsVal (cs : List Char) : ℕ :=
  cs.foldl (fun acc c => 10 * acc + (c.toNat - '0'.toNat)) 0

/-- Model of `IntervalSecsFor` (`recentfile/recentfile.go`): parse
`<digits><unit>` where unit is one of `smhdWMQY`; empty digit string means a
count of 1; `Z` is infinite; anything else yields 0. -/
def intervalSecsFor (interval : String) : ℤ :=
  if interval = "" then 0
  else if interval = "Z" then ZSeconds
  else
    let cs := interval.toList
    let ds := cs.dropLast
    let u := cs.getLast?.getD ' '
    if ds.all (·.isDigit) ∧ unitSecsFor u ≠ 0 then
      (if ds = [] then 1 else (digitsVal ds : ℤ)) * unitSecsFor u
    else 0

/-- The Go insertion step: insert an event into a descending-sorted list after
all events with an equal or larger epoch (this is what the bubbling loop in
`sortEventsByEpoch` does for each element, preserving stability). -/
def insertDescByEpoch (ev : Event) : List Event → List Event
  | [] => [ev]
  | x :: xs => if x.epoch < ev.epoch then ev :: x :: xs else x :: insertDescByEpoch ev xs

/-- Model of `sortEventsByEpoch` (`recentfile/recentfile.go`): stable insertion
sort, descending by epoch. -/
def sortEventsByEpoch (events : List Event) : List Event :=
  events.foldl (fun acc ev => insertDescByEpoch ev acc) []

/-- Model of `truncate` (`recentfile/recentfile.go`): drop events below the
cutoff, which is `merged.epoch` when that is present and non-zero, and
otherwise `now - interval_secs`, except that a `Z` interval returns the input
unchanged. -/
def truncate (merged : Option MergedInfo) (interval : String) (now : Epoch)
    (events : List Event) : List Event :=
  if events = [] then events
  else
    match merged with
    | some m =>
      if m.epoch ≠ 0 then events.filter (fun ev => m.epoch ≤ ev.epoch)
      else truncateByInterval interval now events
    | none => truncateByInterval interval now events
where
  /-- The interval-based branch of `truncate`. -/
  truncateByInterval (interval : String) (now : Epoch) (events : List Event) :
      List Event :=
    if intervalSecsFor interval = ZSeconds then events
    else events.filter (fun ev => now - (intervalSecsFor interval : ℚ) ≤ ev.epoch)

/-- Collapse runs of slashes into one slash (the `/+` replace-all pass of
`NaivePathNormalize` in `recentfile/recentfile.go`). -/
def collapseSlashes : List Char → List Char
  | [] => []
  | '/' :: rest => '/' :: collapseSlashes (rest.dropWhile (fun c => c = '/'))
  | c :: rest => c :: collapseSlashes rest
termination_by l => l.length
decreasing_by
  · simp only [List.length_cons]
    exact Nat.lt_succ_of_le ((List.dropWhile_sublist _).length_le)
  · simp

/-- Does the character list contain the substring `/./` (the
`strings.Contains(path, "/./")` test)? -/
def containsSlashDot : List Char → Bool
  | '/' :: '.' :: '/' :: _ => true
  | _ :: rest => containsSlashDot rest
  | [] => false

/-- One `strings.ReplaceAll(path, "/./", "/")` pass: scan left to right,
replace each non-overlapping occurrence, do not rescan the replacement. -/
def replaceAllSlashDot : List Char → List Char
  | '/' :: '.' :: '/' :: rest => '/' :: replaceAllSlashDot rest
  | c :: rest => c :: replaceAllSlashDot rest
  | [] => []

/-- The `for strings.Contains(path, "/./")` loop of `NaivePathNormalize`.
Each productive pass shortens the list by at least two characters, so a fuel
of the list length is enough to reach the Go loop's fixpoint; the fuel only
exists to convince the termination checker. -/
def removeDotSegs : ℕ → List Char → List Char
  | 0, l => l
  | fuel + 1, l =>
    if containsSlashDot l then removeDotSegs fuel (replaceAllSlashDot l) else l

/-- Does the character list contain the substring `/../`? -/
def containsSlashDotDot : List Char → Bool
  | '/' :: '.' :: '.' :: '/' :: _ => true
  | _ :: rest => containsSlashDotDot rest
  | [] => false

/-- One replace-all pass of the regexp `/[^/]+/\.\./` with `/`: at each
slash, a non-empty slash-free segment followed by `/../` is consumed and a
single slash is emitted; scanning continues after the match. -/
def replaceAllDotDotOnce : List Char → List Char
  | [] => []
  | '/' :: rest =>
    let seg := rest.takeWhile (fun c => c ≠ '/')
    if seg ≠ [] ∧ ("/../".toList).isPrefixOf (rest.drop seg.length) then
      '/' :: replaceAllDotDotOnce (rest.drop (seg.length + 4))
    else '/' :: replaceAllDotDotOnce rest
  | c :: rest => c :: replaceAllDotDotOnce rest
termination_by l => l.length
decreasing_by
  · simp only [List.length_cons]
    exact Nat.lt_succ_of_le (by simpa using List.length_drop_le _ _)
  · simp
  · simp

/-- The `for strings.Contains(path, "/../")` loop of `NaivePathNormalize`,
fuelled like `removeDotSegs`.  (The Go loop does not terminate when `/../`
occurs with no preceding segment, e.g. a leading `/../`; on such inputs the
fuelled model returns the current list instead of diverging.) -/
def resolveDotDot : ℕ → List Char → List Char
  | 0, l => l
  | fuel + 1, l =>
    if containsSlashDotDot l then resolveDotDot fuel (replaceAllDotDotOnce l) else l

/-- Remove one trailing slash (`strings.TrimSuffix(path, "/")`). -/
def trimTrailingSlash (l : List Char) : List Char :=
  if l.getLast? = some '/' then l.dropLast else l

/-- Model of `NaivePathNormalize` (`recentfile/recentfile.go`). -/
def naivePathNormalize (path : String) : String :=
  let l1 := collapseSlashes path.toList
  let l2 := removeDotSegs l1.length l1
  let l3 := resolveDotDot l2.length l2
  String.mk (trimTrailingSlash l3)

/-- Model of `strings.TrimPrefix`. -/
def trimPrefixStr (s p : String) : String :=
  if (p.toList).isPrefixOf s.toList then String.mk (s.toList.drop p.toList.length)
  else s

/-- Model of `canonizePath` (`recentfile/recentfile.go`): strip the local
root and a leading slash, then normalize unless a different canonize method
is configured. -/
def canonizePath (localRoot canonize path : String) : String :=
  let p1 := trimPrefixStr path localRoot
  let p2 := trimPrefixStr p1 "/"
  if canonize = "" ∨ canonize = "naive_path_normalize" then naivePathNormalize p2
  else p2

/-- Model of `ensureMonotonic` (`recentfile/recentfile.go`): bump to just
above the head epoch when the candidate does not exceed it. -/
def ensureMonotonic (epoch : Epoch) (events : List Event) : Epoch :=
  match events with
  | [] => epoch
  | x :: _ => if epoch ≤ x.epoch then epochIncreaseABit x.epoch else epoch

/-- Minmax metadata (`recentfile/recentfile.go`, `type MinmaxInfo`). -/
structure MinmaxInfo where
  max : Epoch
  min : Epoch
deriving DecidableEq, Repr

/-- Model of `updateMinmax`: first event is the max, last is the min. -/
def updateMinmax (recent : List Event) : Option MinmaxInfo :=
  match recent with
  | [] => none
  | x :: _ => some ⟨x.epoch, ((x :: recent.tail).getLast (by simp)).epoch⟩

/-- In-memory state of one recentfile, restricted to the fields the embedded
algorithms read or write. -/
structure RFState where
  interval : String
  localRoot : String
  canonize : String
  dirtymark : Epoch
  merged : Option MergedInfo
  minmax : Option MinmaxInfo
  recent : List Event
deriving DecidableEq, Repr

/-- The epoch-assignment loop of `BatchUpdate` (`recentfile/recentfile.go`):
walk the batch, canonicalize each path, assign either the (monotonically
adjusted) dirty epoch - also setting the dirtymark to `now` and clearing the
merged metadata - or the (monotonically adjusted) current epoch, and prepend
each new event to the working list so the next item sees it.  Returns the
processed events together with the final dirtymark and merged metadata. -/
def applyBatchItems (localRoot canonize : String) (now : Epoch) :
    List BatchItem → List Event → Epoch → Option MergedInfo →
    List Event × Epoch × Option MergedInfo
  | [], _, dm, mg => ([], dm, mg)
  | item :: rest, working, dm, mg =>
    let canonPath := canonizePath localRoot canonize item.path
    if item.epoch ≠ 0 ∧ item.epoch < now then
      let e := ensureMonotonic item.epoch working
      let ev : Event := ⟨e, canonPath, item.type⟩
      let r := applyBatchItems localRoot canonize now rest (ev :: working) now none
      (ev :: r.1, r.2)
    else
      let e := ensureMonotonic now working
      let ev : Event := ⟨e, canonPath, item.type⟩
      let r := applyBatchItems localRoot canonize now rest (ev :: working) dm mg
      (ev :: r.1, r.2)

/-- Model of `BatchUpdate` (`recentfile/recentfile.go`): empty batches are a
no-op; otherwise assign epochs, drop current events whose path occurs in the
processed batch, append the processed batch, sort descending, truncate with
the (possibly updated) merged metadata, and recompute minmax. -/
def batchUpdate (rf : RFState) (batch : List BatchItem) (now : Epoch) : RFState :=
  if batch = [] then rf
  else
    let r := applyBatchItems rf.localRoot rf.canonize now batch rf.recent
      rf.dirtymark rf.merged
    let processed := r.1
    let dm := r.2.1
    let mg := r.2.2
    let pathSet := processed.map (·.path)
    let kept := rf.recent.filter (fun ev => ¬ ev.path ∈ pathSet)
    let sorted := sortEventsByEpoch (kept ++ processed)
    let newRecent := truncate mg rf.interval now sorted
    { rf with
        dirtymark := dm
        merged := mg
        minmax := (updateMinmax newRecent)
        recent := newRecent }

/-- Go map from path to event, modelled as an association list in insertion
order; every path occurs at most once.  The theorems stated over map-derived
lists do not depend on the materialization order. -/
def lookupPath (m : List Event) (p : String) : Option Event :=
  m.find? (fun ev => ev.path = p)

/-- Unconditional map write `mergedEvents[event.Path] = event` (the target
loop of `MergeFrom`): replace the entry for the path or append a new one. -/
def upsertPath (m : List Event) (ev : Event) : List Event :=
  match m with
  | [] => [ev]
  | x :: xs => if x.path = ev.path then ev :: xs else x :: upsertPath xs ev

/-- Conditional map write of the source loop of `MergeFrom`: on an existing
path keep the newer event (strictly greater epoch replaces), otherwise
insert. -/
def upsertIfNewer (m : List Event) (ev : Event) : List Event :=
  match m with
  | [] => [ev]
  | x :: xs =>
    if x.path = ev.path then
      if x.epoch < ev.epoch then ev :: xs else x :: xs
    else x :: upsertIfNewer xs ev

/-- The target-event loop of `MergeFrom` (part_005 of the aggregation file):
skip events older than `oldestAllowed` (when that is non-zero), insert the
rest unconditionally. -/
def mergeFilterInsertTarget (oa : Epoch) (m : List Event) (events : List Event) :
    List Event :=
  events.foldl (fun m ev => if oa ≠ 0 ∧ ev.epoch < oa then m else upsertPath m ev) m

/-- The source-event loop of `MergeFrom`: skip events older than
`oldestAllowed` (when non-zero), keep the newer event per path. -/
def mergeInsertSource (oa : Epoch) (m : List Event) (events : List Event) :
    List Event :=
  events.foldl (fun m ev => if oa ≠ 0 ∧ ev.epoch < oa then m else upsertIfNewer m ev) m

/-- The collision loop of `DeduplicateEpochs`: bump by 10 µs while the epoch
is already taken.  The candidates form a strictly increasing sequence, so at
most `seen.length` bumps can collide; the fuel `seen.length + 1` therefore
always reaches the same fixpoint as the Go loop and only exists to make the
recursion structural. -/
def bumpEpoch : ℕ → List Epoch → Epoch → Epoch
  | 0, _, e => e
  | fuel + 1, seen, e =>
    if e ∈ seen then bumpEpoch fuel seen (epochIncreaseABit e) else e

/-- The per-event pass of `DeduplicateEpochs`, threading the set of epochs
seen so far. -/
def deduplicateEpochsAux (seen : List Epoch) : List Event → List Event
  | [] => []
  | ev :: rest =>
    let e := bumpEpoch (seen.length + 1) seen ev.epoch
    ⟨e, ev.path, ev.type⟩ :: deduplicateEpochsAux (e :: seen) rest

/-- Model of `DeduplicateEpochs` (part_005): lists of at most one event are
returned as-is; otherwise collisions are bumped and the result re-sorted. -/
def deduplicateEpochs (events : List Event) : List Event :=
  if events.length ≤ 1 then events
  else sortEventsByEpoch (deduplicateEpochsAux [] events)

/-- The `oldest_allowed` computation of `MergeFrom` (part_005, fixed
version): performed before any metadata is copied.  Dirtymark mismatch keeps
everything; with non-zero merged metadata the cutoff is the minimum of
`now - interval_secs` and `merged.epoch`, lowered further to the source's
oldest event when that is older; with no merged metadata everything is
kept. -/
def mergeOldestAllowed (tgt src : RFState) (now : Epoch) : Epoch :=
  if tgt.dirtymark ≠ src.dirtymark then 0
  else
    match tgt.merged with
    | some m =>
      if m.epoch ≠ 0 then
        let intervalCutoff : Epoch :=
          if intervalSecsFor tgt.interval ≠ ZSeconds then
            now - (intervalSecsFor tgt.interval : ℚ)
          else 0
        let oa :=
          if intervalCutoff ≠ 0 ∧ intervalCutoff < m.epoch then intervalCutoff
          else m.epoch
        match src.recent.getLast? with
        | some lastEv => if oa ≠ 0 ∧ lastEv.epoch < oa then lastEv.epoch else oa
        | none => oa
      else 0
    | none => 0

/-- Model of `MergeFrom` (part_005, fixed version), restricted to its pure
event/metadata transformation: compute `oldest_allowed` with the original
dirtymarks, build the path map from target then source, materialize, sort
descending, deduplicate epochs, assign the list directly to `recent` (no
truncate), recompute minmax, and copy the source dirtymark afterwards. -/
def mergeFrom (tgt src : RFState) (now : Epoch) : RFState :=
  let oa := mergeOldestAllowed tgt src now
  let m1 := mergeFilterInsertTarget oa [] tgt.recent
  let m2 := mergeInsertSource oa m1 src.recent
  let newRecent := deduplicateEpochs (sortEventsByEpoch m2)
  let dm :=
    if tgt.dirtymark = 0 ∨ tgt.dirtymark ≠ src.dirtymark then src.dirtymark
    else tgt.dirtymark
  { tgt with
      recent := newRecent
      minmax := (updateMinmax newRecent)
      dirtymark := dm }

/-- Outcome of `os.Stat` on a target recentfile, as observed by
`shouldMergeByAge`: the file may be missing, the stat may fail, or the file
has an age (now minus mtime) in seconds. -/
inductive FileStatObs where
  | absent
  | statFailed
  | age (a : ℚ)
deriving DecidableEq, Repr

/-- Model of `shouldMergeByAge` (part_005): a missing target is always
merged, an unstatable one never, and otherwise the target is merged when its
age strictly exceeds the previous interval's duration. -/
def shouldMergeByAge (fs : FileStatObs) (prevInterval : String) : Bool :=
  match fs with
  | .absent => true
  | .statFailed => false
  | .age a => decide ((intervalSecsFor prevInterval : ℚ) < a)

/-- Insert an interval into an ascending-by-duration sorted list (the
comparator of the `sort.Slice` call in `Aggregate`). -/
def insertIntervalAsc (s : String) : List String → List String
  | [] => [s]
  | x :: xs =>
    if intervalSecsFor s < intervalSecsFor x then s :: x :: xs
    else x :: insertIntervalAsc s xs

/-- Sort the aggregator intervals ascending by duration.  `sort.Slice` is
unstable, but all callers use pairwise-distinct durations, for which every
correct sort produces this list. -/
def sortIntervalsBySecs (l : List String) : List String :=
  l.foldl (fun acc s => insertIntervalAsc s acc) []

/-- The chain loop of `Aggregate` (part_005), reduced to which targets are
merged.  State: `src` is the current source interval, `prevSrc` the interval
of the level before it (`prevSourceInterval` in the Go code).  Step 0 always
merges (`source.interval == rf.interval`); later steps consult
`shouldMergeByAge` against `prevSrc`; the first skipped level terminates the
pass (`break`).  On a merge the recursion advances with `src := target` and
`prevSrc := src`. -/
def aggregateChain (force : Bool) (principal : String)
    (env : String → FileStatObs) : String → String → List String → List String
  | _, _, [] => []
  | src, prevSrc, t :: rest =>
    let sm := force || src == principal || shouldMergeByAge (env t) prevSrc
    if sm then t :: aggregateChain force principal env t src rest else []

/-- Model of `Aggregate` (part_005), reduced to the list of target intervals
that get merged during one pass: sort the aggregator ascending, keep the
intervals strictly larger than the principal, and run the chain starting
from the principal. -/
def aggregate (force : Bool) (principal : String) (aggregator : List String)
    (env : String → FileStatObs) : List String :=
  if aggregator = [] then []
  else
    let targets := (sortIntervalsBySecs aggregator).filter
      (fun i => intervalSecsFor principal < intervalSecsFor i)
    if targets = [] then []
    else aggregateChain force principal env principal principal targets

/-- The state-map loop shared by `buildCurrentIndexState` (fsck) and
`verifyEventsMatchFilesystem` (`fsck/checks.go`): stream all events of all
interval files in order and keep, per path, the event with the strictly
largest epoch (the first-seen event wins ties).  `events` is the
concatenation of the files' event streams. -/
def buildStateMap (events : List Event) : List Event :=
  events.foldl (fun m ev => upsertIfNewer m ev) []

/-- Model of `buildCurrentIndexState` (fsck): the paths whose winning event
has type `new` - the set of paths that should exist on disk. -/
def buildCurrentIndexState (events : List Event) : List String :=
  ((buildStateMap events).filter (fun ev => ev.type = "new")).map (·.path)

/-- The paths the index-to-disk check actually verifies
(`verifyEventsMatchFilesystem` skips entries whose winning event has type
`delete`). -/
def checkedPaths (events : List Event) : List String :=
  ((buildStateMap events).filter (fun ev => ev.type ≠ "delete")).map (·.path)

/-- Issue count of the index-to-disk check in full (verbose) traversal: one
issue per verified path missing from disk, where `onDisk` models a
successful `lstat`. -/
def verifyEventsIssues (events : List Event) (onDisk : String → Bool) : ℕ :=
  ((buildStateMap events).filter
    (fun ev => ev.type ≠ "delete" ∧ ¬ onDisk ev.path)).length

/-- Model of `EpochFromTime` (`recentfile/epoch.go`): quantize a time given
in microseconds to 10-microsecond units (`UnixMicro() / 10`, Go integer
division truncating toward zero) and rescale to seconds. -/
def epochFromTime (micro : ℤ) : Epoch :=
  ((Int.tdiv micro 10 : ℤ) : ℚ) / 100000

/-- Model of `filepath.Base` restricted to the slash-separated relative
paths produced by the fsck walk: the part after the last slash, with Go's
special cases for the empty and all-slash paths. -/
def filepathBase (p : String) : String :=
  if p = "" then "."
  else
    let l := (p.toList.reverse.dropWhile (fun c => c = '/')).reverse
    if l = [] then "/"
    else String.mk ((l.reverse.takeWhile (fun c => c ≠ '/')).reverse)

/-- Model of `filepath.Ext`: the suffix beginning at the final dot in the
final slash-separated element, empty when there is none. -/
def filepathExt (p : String) : String :=
  let seg := p.toList.reverse.takeWhile (fun c => c ≠ '/')
  let pre := seg.takeWhile (fun c => c ≠ '.')
  if pre.length = seg.length then "" else String.mk ('.' :: pre.reverse)

/-- One file seen by the `filepath.Walk` of `repairIndexOrphans`
(directories are already skipped): its path relative to the local root and
its mtime in microseconds. -/
structure WalkEntry where
  relPath : String
  mtimeMicro : ℤ
deriving DecidableEq, Repr

/-- The skip rules of the `repairIndexOrphans` walk callback
(`fsck/repair.go`): skip `.`/`..` markers and the RECENT control files
(`<root>.recent`, and `<root>-*` whose extension is the serializer suffix,
`.lock` or `.new`). -/
def repairOrphanSkip (filenameRoot serializerSuffix relPath : String) : Bool :=
  if relPath = "." ∨ relPath = ".." then true
  else
    let baseName := filepathBase relPath
    if (filenameRoot.toList).isPrefixOf baseName.toList then
      if baseName = filenameRoot ++ ".recent" then true
      else if filenameRoot.length + 1 < baseName.length ∧
          baseName.toList.get? filenameRoot.length = some '-' then
        if filepathExt baseName = serializerSuffix ∨
            filepathExt baseName = ".lock" ∨ filepathExt baseName = ".new" then
          true
        else false
      else false
    else false

/-- Model of the batch built by `repairIndexOrphans` (`fsck/repair.go`): for
every walked file that is not skipped and not in the current index state, a
`"new"` item whose epoch is `EpochFromTime(info.ModTime())` - the file's
mtime. -/
def repairIndexOrphansBatch (filenameRoot serializerSuffix : String)
    (indexPaths : String → Bool) (entries : List WalkEntry) : List BatchItem :=
  entries.foldl
    (fun batch e =>
      if repairOrphanSkip filenameRoot serializerSuffix e.relPath then batch
      else if indexPaths e.relPath then batch
      else batch ++ [⟨e.relPath, "new", epochFromTime e.mtimeMicro⟩])
    []

/-- Outcome of the `os.Mkdir` attempt in `Lock` (part_008). -/
inductive MkdirResult where
  | ok
  | eexist
  | otherErr
deriving DecidableEq, Repr

/-- Outcome of reading the `process` file inside an existing lock
directory. -/
inductive ReadFileResult where
  | missing
  | readErr
  | content (s : String)
deriving DecidableEq, Repr

/-- Result of `checkStaleLock`: the lock is stale, its owner is alive, or
the check itself failed (unreadable `process` file). -/
inductive StaleCheck where
  | stale
  | fresh
  | errored
deriving DecidableEq, Repr

/-- Model of `strconv.Atoi`: an optional sign followed by one or more
digits, spanning the whole string (the int64 range check is not
modelled). -/
def atoi (s : String) : Option ℤ :=
  match s.toList with
  | [] => none
  | '+' :: ds =>
    if ds ≠ [] ∧ ds.all (fun c => c.isDigit) then some (digitsVal ds) else none
  | '-' :: ds =>
    if ds ≠ [] ∧ ds.all (fun c => c.isDigit) then some (-(digitsVal ds : ℤ))
    else none
  | ds => if ds.all (fun c => c.isDigit) then some (digitsVal ds) else none

/-- Strip one trailing newline, as `checkStaleLock` does before parsing. -/
def stripTrailingNewline (s : String) : String :=
  if s.toList.getLast? = some '\n' then String.mk s.toList.dropLast else s

/-- Model of `checkStaleLock` (part_008): a missing, empty or unparseable
`process` file - or one naming a dead PID - makes the lock stale; a live
PID makes it fresh; any other read error is surfaced. -/
def checkStaleLock (r : ReadFileResult) (alive : ℤ → Bool) : StaleCheck :=
  match r with
  | .missing => .stale
  | .readErr => .errored
  | .content s =>
    if s = "" then .stale
    else
      match atoi (stripTrailingNewline s) with
      | none => .stale
      | some pid => if alive pid then .fresh else .stale

/-- What `Lock` observes in one iteration of its retry loop: the mkdir
outcome, the `process` file contents (consulted only on EEXIST), and the
elapsed time at the timeout check, in milliseconds. -/
structure LockObs where
  mkdir : MkdirResult
  procFile : ReadFileResult
  elapsed : ℚ
deriving DecidableEq, Repr

/-- Action taken by one iteration of the `Lock` retry loop. -/
inductive LockStepAction where
  | acquired
  | failed
  | removedStale
  | timedOut
  | slept (d : ℚ)
deriving DecidableEq, Repr

/-- One iteration of the `Lock` loop (part_008): mkdir success acquires (the
PID write is modelled as succeeding); a non-EEXIST error fails; on EEXIST a
stale lock is removed recursively and retried immediately, a stale-check
error fails, and otherwise the loop times out when the elapsed time exceeds
the timeout or sleeps the current backoff and doubles it up to the 1000 ms
cap.  Returns the action and the next sleep duration. -/
def lockStep (obs : LockObs) (alive : ℤ → Bool) (timeout sleepDur : ℚ) :
    LockStepAction × ℚ :=
  match obs.mkdir with
  | .ok => (.acquired, sleepDur)
  | .otherErr => (.failed, sleepDur)
  | .eexist =>
    match checkStaleLock obs.procFile alive with
    | .errored => (.failed, sleepDur)
    | .stale => (.removedStale, sleepDur)
    | .fresh =>
      if timeout < obs.elapsed then (.timedOut, sleepDur)
      else (.slept sleepDur, min (2 * sleepDur) 1000)

/-- Terminal outcome of a `Lock` run over a finite observation trace. -/
inductive LockResult where
  | acquired
  | failed
  | timedOut
  | exhausted
deriving DecidableEq, Repr

/-- Run the `Lock` loop over an observation trace, collecting the sleep
durations actually used.  `exhausted` means the trace ended while the loop
would have continued. -/
def lockRun (alive : ℤ → Bool) (timeout : ℚ) :
    List LockObs → ℚ → LockResult × List ℚ
  | [], _ => (.exhausted, [])
  | obs :: rest, d =>
    match lockStep obs alive timeout d with
    | (.acquired, _) => (.acquired, [])
    | (.failed, _) => (.failed, [])
    | (.timedOut, _) => (.timedOut, [])
    | (.removedStale, d') => lockRun alive timeout rest d'
    | (.slept s, d') =>
      let r := lockRun alive timeout rest d'
      (r.1, s :: r.2)

/-- Model of `Lock` (part_008): the retry loop starts with a 10 ms backoff. -/
def lock (alive : ℤ → Bool) (timeout : ℚ) (trace : List LockObs) :
    LockResult × List ℚ :=
  lockRun alive timeout trace 10

/-- In-memory state of the watcher relevant to `flushBatch`
(`watcher/watcher.go`): the pending batch and the last-flush timestamp. -/
structure WatcherState where
  batch : List BatchItem
  lastFlush : ℚ
deriving DecidableEq, Repr

/-- Unconditional per-path overwrite of `deduplicateBatch` (the Go map
write `eventMap[item.Path] = item`), materialized in insertion order. -/
def upsertItem (m : List BatchItem) (it : BatchItem) : List BatchItem :=
  match m with
  | [] => [it]
  | x :: xs => if x.path = it.path then it :: xs else x :: upsertItem xs it

/-- Model of `deduplicateBatch` (`watcher/watcher.go`): batches of at most
one item are returned as-is; otherwise the last-seen item per path wins. -/
def deduplicateBatch (batch : List BatchItem) : List BatchItem :=
  if batch.length ≤ 1 then batch
  else batch.foldl (fun m it => upsertItem m it) []

/-- Observable side effects of one `flushBatch` call: the deduplicated batch
handed to `BatchUpdate` (if a write was attempted), and whether the error
handler or the event callback ran. -/
structure FlushEffects where
  attemptedWrite : Option (List BatchItem)
  errorHandlerCalled : Bool
  eventCallbackCalled : Bool
deriving DecidableEq, Repr

/-- Model of `flushBatch` (`watcher/watcher.go`): an empty pending batch is
a no-op; otherwise the pending batch is taken and cleared before the write
(`w.batch = nil`), deduplicated and handed to `BatchUpdate`.  On failure
only the error handler runs - the removed events are not restored and the
last-flush timestamp is not updated; on success the event callback runs and
the last-flush timestamp becomes `now`. -/
def flushBatch (st : WatcherState) (updateOk : Bool) (now : ℚ) :
    WatcherState × FlushEffects :=
  if st.batch = [] then (st, ⟨none, false, false⟩)
  else
    let deduped := deduplicateBatch st.batch
    if updateOk then
      (⟨[], now⟩, ⟨some deduped, false, true⟩)
    else
      (⟨[], st.lastFlush⟩, ⟨some deduped, true, false⟩)

/-- One covered interval of the Done tracker (`recentfile/done.go`): a
`[hi, lo]` epoch pair. -/
structure DoneIv where
  hi : Epoch
  lo : Epoch
deriving DecidableEq, Repr

/-- Model of `coveredUnlocked` (`done.go`): is the epoch inside any
interval (endpoints included)? -/
def coveredUnlocked (epoch : Epoch) (ivs : List DoneIv) : Bool :=
  ivs.any (fun iv => decide (epoch ≤ iv.hi) && decide (iv.lo ≤ epoch))

/-- Model of `insertInterval` (`done.go`): insert a `[epoch, epoch]`
singleton before the first interval whose `hi` is strictly below the
epoch. -/
def insertInterval (epoch : Epoch) : List DoneIv → List DoneIv
  | [] => [⟨epoch, epoch⟩]
  | iv :: rest =>
    if iv.hi < epoch then ⟨epoch, epoch⟩ :: iv :: rest
    else iv :: insertInterval epoch rest

/-- One scan of the `consolidate` loop (`done.go`): merge the first adjacent
pair that overlaps or touches (`curr.lo <= next.hi`) into
`[max hi, min lo]`, or report that no pair merges. -/
def consolidateStep : List DoneIv → Option (List DoneIv)
  | a :: b :: rest =>
    if a.lo ≤ b.hi then some (⟨max a.hi b.hi, min a.lo b.lo⟩ :: rest)
    else
      match consolidateStep (b :: rest) with
      | some l => some (a :: l)
      | none => none
  | _ => none

/-- The `for { merged := false ... }` loop of `consolidate`: repeat the scan
until no adjacent pair merges.  Each productive scan shortens the list by
one interval, so a fuel of the list length always reaches the Go loop's
fixpoint; the fuel exists only to make the recursion structural. -/
def consolidateLoop : ℕ → List DoneIv → List DoneIv
  | 0, l => l
  | fuel + 1, l =>
    match consolidateStep l with
    | some l' => consolidateLoop fuel l'
    | none => l

/-- Model of `consolidate` (`done.go`): lists of at most one interval are
left alone, otherwise merge until no adjacent pair overlaps or touches. -/
def consolidate (ivs : List DoneIv) : List DoneIv :=
  if ivs.length ≤ 1 then ivs else consolidateLoop ivs.length ivs

/-- The extension loop of `registerOne` (`done.go`): for each interval,
using its values from the start of the iteration, extend it downward to the
epoch when the left neighbour event is inside it and the epoch is at or
below its `lo`, and upward when the right neighbour event is inside it and
the epoch is at or above its `hi`; count the extensions and stop once the
count reaches two, leaving the remaining intervals untouched. -/
def leftCond (epoch : Epoch) (leftE : Option Epoch) (iv : DoneIv) : Bool :=
  match leftE with
  | some le => decide (iv.lo ≤ le ∧ le ≤ iv.hi ∧ epoch ≤ iv.lo)
  | none => false

def rightCond (epoch : Epoch) (rightE : Option Epoch) (iv : DoneIv) : Bool :=
  match rightE with
  | some re => decide (re ≤ iv.hi ∧ iv.lo ≤ re ∧ iv.hi ≤ epoch)
  | none => false

def registerExtend (epoch : Epoch) (leftE rightE : Option Epoch) :
    List DoneIv → ℕ → List DoneIv × ℕ
  | [], reg => ([], reg)
  | iv :: rest, reg =>
    let c1 := leftCond epoch leftE iv
    let c2 := rightCond epoch rightE iv
    let iv' : DoneIv := ⟨if c2 then epoch else iv.hi, if c1 then epoch else iv.lo⟩
    let reg' := reg + (if c1 then 1 else 0) + (if c2 then 1 else 0)
    if 2 ≤ reg' then (iv' :: rest, reg')
    else
      let r := registerExtend epoch leftE rightE rest reg'
      (iv' :: r.1, r.2)

/-- Model of `registerOne` (`done.go`): out-of-range indices are ignored;
covered epochs are skipped; the first epoch creates a singleton interval;
otherwise run the extension loop and consolidate when it extended one or
two intervals, or insert a new singleton when it extended none. -/
def registerOne (events : List Event) (i : ℤ) (l : List DoneIv) : List DoneIv :=
  if i < 0 ∨ (events.length : ℤ) ≤ i then l
  else
    match events.get? i.toNat with
    | none => l
    | some ev =>
      if coveredUnlocked ev.epoch l then l
      else if l = [] then [⟨ev.epoch, ev.epoch⟩]
      else
        let leftE := if 0 < i then (events.get? (i - 1).toNat).map Event.epoch
          else none
        let rightE := if i < (events.length : ℤ) - 1 then
          (events.get? (i + 1).toNat).map Event.epoch else none
        let r := registerExtend ev.epoch leftE rightE l 0
        if r.2 = 2 then consolidate r.1
        else if r.2 = 1 then consolidate r.1
        else insertInterval ev.epoch r.1

/-- Model of `Register` (`done.go`): `nil` indices mean all event indices;
each index is registered in turn. -/
def doneRegister (events : List Event) (indices : Option (List ℤ))
    (l : List DoneIv) : List DoneIv :=
  let idxs := match indices with
    | none => (List.range events.length).map (fun n => (n : ℤ))
    | some is => is
  idxs.foldl (fun l i => registerOne events i l) l

/-- The overlap scan of `mergeOneInterval` (`done.go`): extend the first
interval that overlaps or touches the incoming one to cover both. -/
def mergeOneFind (oiv : DoneIv) : List DoneIv → Option (List DoneIv)
  | [] => none
  | iv :: rest =>
    if iv.lo ≤ oiv.hi ∧ oiv.lo ≤ iv.hi then
      some (⟨max oiv.hi iv.hi, min oiv.lo iv.lo⟩ :: rest)
    else
      match mergeOneFind oiv rest with
      | some l => some (iv :: l)
      | none => none

/-- The insert-position scan of `mergeOneInterval`: insert before the first
interval with a smaller `hi`, or right after the first interval whose `lo`
exceeds the incoming `hi`, or at the end. -/
def mergeInsertPosLoop (oiv : DoneIv) : List DoneIv → List DoneIv
  | [] => [oiv]
  | iv :: rest =>
    if iv.hi < oiv.hi then oiv :: iv :: rest
    else if oiv.hi < iv.lo then iv :: oiv :: rest
    else iv :: mergeInsertPosLoop oiv rest

/-- Model of `mergeOneInterval` (`done.go`): into an empty set the interval
is appended as-is; otherwise it either extends the first overlapping
interval or is inserted at its position, and the set is consolidated. -/
def mergeOneInterval (l : List DoneIv) (oiv : DoneIv) : List DoneIv :=
  if l = [] then [oiv]
  else
    let l' := match mergeOneFind oiv l with
      | some merged => merged
      | none => mergeInsertPosLoop oiv l
    consolidate l'

/-- Model of `Merge` (`done.go`): merge every interval of the other tracker
in order. -/
def doneMerge (l other : List DoneIv) : List DoneIv :=
  other.foldl (fun l oiv => mergeOneInterval l oiv) l

/-- The interval sets reachable by Done-tracker operations: starting empty,
any sequence of `Register` (arbitrary events and indices), `Merge` with
another reachable tracker, and `Reset`. -/
inductive DoneReach : List DoneIv → Prop where
  | nil : DoneReach []
  | register (events : List Event) (indices : Option (List ℤ))
      {l : List DoneIv} : DoneReach l →
      DoneReach (doneRegister events indices l)
  | merge {l l2 : List DoneIv} : DoneReach l → DoneReach l2 →
      DoneReach (doneMerge l l2)
  | reset {l : List DoneIv} : DoneReach l → DoneReach []

/-- The Done-tracker representation invariant: intervals are well-formed
(`lo ≤ hi`) and adjacent intervals are strictly separated (`next.hi <
curr.lo`), which entails both "no two intervals overlap or touch" and
"sorted descending by hi". -/
def DoneInv (l : List DoneIv) : Prop :=
  (∀ iv ∈ l, iv.lo ≤ iv.hi) ∧ List.Chain' (fun a b => b.hi < a.lo) l

/-- Arithmetic progression of epochs with step 10 µs, used to describe the
epochs assigned across one batch inside a single clock tick. -/
def epochProgression (a : Epoch) (n : ℕ) : List Epoch :=
  (List.range n).map (fun j : ℕ => a + (j : ℚ) * (1 / 100000))

section SortLemmas

theorem mem_insertDescByEpoch (ev x : Event) (l : List Event) :
    x ∈ insertDescByEpoch ev l ↔ x = ev ∨ x ∈ l := by
  induction l with
  | nil => simp [insertDescByEpoch]
  | cons y ys ih =>
    simp only [insertDescByEpoch]
    split
    · simp [or_assoc]
    · simp [ih]; tauto

theorem insertDescByEpoch_perm (ev : Event) (l : List Event) :
    List.Perm (insertDescByEpoch ev l) (ev :: l) := by
  induction l with
  | nil => simp [insertDescByEpoch]
  | cons y ys ih =>
    simp only [insertDescByEpoch]
    split
    · exact List.Perm.refl _
    · exact List.Perm.trans (List.Perm.cons y ih) (List.Perm.swap ev y ys)

theorem sortEventsByEpoch_perm (l : List Event) :
    List.Perm (sortEventsByEpoch l) l := by
  suffices h : ∀ acc, List.Perm (List.foldl (fun acc ev => insertDescByEpoch ev acc) acc l)
      (l.reverse ++ acc) by
    have := h []
    simpa [sortEventsByEpoch] using
      this.trans (by simpa using (List.reverse_perm l).append_right [])
  induction l with
  | nil => intro acc; simp
  | cons x xs ih =>
    intro acc
    simp only [List.foldl_cons, List.reverse_cons, List.append_assoc]
    refine (ih _).trans ?_
    refine List.Perm.append_left _ ?_
    simpa using insertDescByEpoch_perm x acc

theorem mem_sortEventsByEpoch (x : Event) (l : List Event) :
    x ∈ sortEventsByEpoch l ↔ x ∈ l :=
  (sortEventsByEpoch_perm l).mem_iff

/-- Descending (non-strict) order predicate used for sortedness statements. -/
def EpochSortedDesc (l : List Event) : Prop :=
  List.Pairwise (fun a b => b.epoch ≤ a.epoch) l

theorem insertDescByEpoch_sorted (ev : Event) (l : List Event)
    (h : EpochSortedDesc l) : EpochSortedDesc (insertDescByEpoch ev l) := by
  induction l with
  | nil => simp [insertDescByEpoch, EpochSortedDesc]
  | cons y ys ih =>
    simp only [insertDescByEpoch]
    have hy := (List.pairwise_cons.mp h).1
    have hys := (List.pairwise_cons.mp h).2
    split
    · rename_i hlt
      refine List.pairwise_cons.mpr ⟨?_, h⟩
      intro b hb
      rcases List.mem_cons.mp hb with rfl | hb
      · exact le_of_lt hlt
      · exact le_trans (hy b hb) (le_of_lt hlt)
    · rename_i hge
      push_neg at hge
      refine List.pairwise_cons.mpr ⟨?_, ih hys⟩
      intro b hb
      rcases (mem_insertDescByEpoch ev b ys).mp hb with hb | hb
      · exact hb ▸ hge
      · exact hy b hb

theorem sortEventsByEpoch_sorted (l : List Event) :
    EpochSortedDesc (sortEventsByEpoch l) := by
  suffices h : ∀ acc, EpochSortedDesc acc →
      EpochSortedDesc (List.foldl (fun acc ev => insertDescByEpoch ev acc) acc l) by
    exact h [] (by simp [EpochSortedDesc])
  induction l with
  | nil => intro acc hacc; simpa using hacc
  | cons x xs ih =>
    intro acc hacc
    exact ih _ (insertDescByEpoch_sorted x acc hacc)

end SortLemmas

section TruncateClaims

/-- C7 counterexample: the claim says "for a Z interval truncation is the
identity (every event is retained)", but `truncate` checks the merged
metadata first: a `Z`-interval file whose `merged.epoch` is non-zero filters
by `merged.epoch`, here dropping the only event. -/
theorem c7_counterexample :
    truncate (some ⟨100⟩) "Z" 0 [⟨50, "a", "new"⟩] = [] ∧
    truncate (some ⟨100⟩) "Z" 0 [⟨50, "a", "new"⟩] ≠ [⟨50, "a", "new"⟩] := by
  constructor
  · rfl
  · decide

/-- C7 (amended): after truncation exactly the events with `epoch ≥ cutoff`
are retained, where `cutoff = merged.epoch` whenever merged is present and
non-zero (this includes `Z` intervals), and otherwise `cutoff =
now - interval_seconds`; a `Z` interval is the identity only when no non-zero
merged metadata is present. -/
theorem c7_truncate_cutoff (merged : Option MergedInfo) (interval : String)
    (now : Epoch) (events : List Event) :
    (∀ m : MergedInfo, merged = some m → m.epoch ≠ 0 →
      truncate merged interval now events =
        events.filter (fun ev => m.epoch ≤ ev.epoch)) ∧
    ((merged = none ∨ merged = some ⟨0⟩) → intervalSecsFor interval ≠ ZSeconds →
      truncate merged interval now events =
        events.filter (fun ev => now - (intervalSecsFor interval : ℚ) ≤ ev.epoch)) ∧
    ((merged = none ∨ merged = some ⟨0⟩) → intervalSecsFor interval = ZSeconds →
      truncate merged interval now events = events) := by
  refine ⟨?_, ?_, ?_⟩
  · rintro m rfl hm
    by_cases he : events = []
    · subst he; simp [truncate]
    · simp [truncate, he, hm]
  · rintro (rfl | rfl) hz
    · by_cases he : events = []
      · subst he; simp [truncate]
      · simp [truncate, truncate.truncateByInterval, he, hz]
    · by_cases he : events = []
      · subst he; simp [truncate]
      · simp [truncate, truncate.truncateByInterval, he, hz]
  · rintro (rfl | rfl) hz
    · by_cases he : events = []
      · subst he; simp [truncate]
      · simp [truncate, truncate.truncateByInterval, he, hz]
    · by_cases he : events = []
      · subst he; simp [truncate]
      · simp [truncate, truncate.truncateByInterval, he, hz]

/-- C7 witness: the amended theorem applied at concrete inputs, evaluating
both the merged-cutoff branch and the Z-identity branch. -/
theorem c7_witness :
    truncate (some ⟨10⟩) "1h" 0 [⟨20, "a", "new"⟩, ⟨5, "b", "new"⟩] =
      [⟨20, "a", "new"⟩] ∧
    truncate none "Z" 0 [⟨20, "a", "new"⟩, ⟨5, "b", "new"⟩] =
      [⟨20, "a", "new"⟩, ⟨5, "b", "new"⟩] := by
  constructor
  · have h := (c7_truncate_cutoff (some ⟨10⟩) "1h" 0
      [⟨20, "a", "new"⟩, ⟨5, "b", "new"⟩]).1 ⟨10⟩ rfl (by decide)
    rw [h]; decide
  · have h := (c7_truncate_cutoff none "Z" 0
      [⟨20, "a", "new"⟩, ⟨5, "b", "new"⟩]).2.2 (Or.inl rfl) (by decide)
    exact h

end TruncateClaims

section BatchUpdateClaims

theorem unitSecsFor_nonneg (c : Char) : 0 ≤ unitSecsFor c := by
  unfold unitSecsFor
  repeat' split
  all_goals norm_num

theorem intervalSecsFor_nonneg (s : String) : 0 ≤ intervalSecsFor s := by
  unfold intervalSecsFor
  dsimp only
  split_ifs with h1 h2 h3 h4
  · norm_num
  · norm_num [ZSeconds]
  · exact mul_nonneg (by norm_num) (unitSecsFor_nonneg _)
  · exact mul_nonneg (by positivity) (unitSecsFor_nonneg _)
  · norm_num

theorem truncate_none_of_le (interval : String) (now : Epoch) (events : List Event)
    (h : ∀ ev ∈ events, now ≤ ev.epoch) :
    truncate none interval now events = events := by
  by_cases he : events = []
  · simp [truncate, he]
  · simp only [truncate, he, if_false]
    unfold truncate.truncateByInterval
    split
    · rfl
    · refine List.filter_eq_self.mpr ?_
      intro ev hev
      have h1 := h ev hev
      have h2 := intervalSecsFor_nonneg interval
      have : now - (intervalSecsFor interval : ℚ) ≤ ev.epoch := by
        have : (0 : ℚ) ≤ (intervalSecsFor interval : ℚ) := by exact_mod_cast h2
        linarith
      simpa using this

theorem epochProgression_cons (a : Epoch) (n : ℕ) :
    epochProgression a (n + 1) = a :: epochProgression (a + 1 / 100000) n := by
  simp only [epochProgression, List.range_succ_eq_map, List.map_cons, List.map_map]
  congr 1
  · norm_num
  · apply List.map_congr_left
    intro j _
    simp only [Function.comp_apply]
    push_cast
    ring

theorem mem_epochProgression (x a : Epoch) (n : ℕ) :
    x ∈ epochProgression a n ↔ ∃ j : ℕ, j < n ∧ x = a + (j : ℚ) * (1 / 100000) := by
  simp only [epochProgression, List.mem_map, List.mem_range]
  constructor
  · rintro ⟨j, hj, h⟩; exact ⟨j, hj, h.symm⟩
  · rintro ⟨j, hj, h⟩; exact ⟨j, hj, h.symm⟩

theorem epochProgression_nodup (a : Epoch) (n : ℕ) :
    (epochProgression a n).Nodup := by
  refine List.Nodup.map_on ?_ (List.nodup_range n)
  intro i _ j _ hij
  have : (i : ℚ) = j := by
    have h : (i : ℚ) * (1 / 100000) = j * (1 / 100000) := by linarith
    have := mul_right_cancel₀ (by norm_num : (1 : ℚ) / 100000 ≠ 0) h
    exact this
  exact_mod_cast this

theorem epochProgression_length (a : Epoch) (n : ℕ) :
    (epochProgression a n).length = n := by
  simp [epochProgression]

theorem now_le_ensureMonotonic (now : Epoch) (working : List Event)
    (h : ∀ x ∈ working.head?, now ≤ x.epoch) :
    now ≤ ensureMonotonic now working := by
  cases working with
  | nil => simp [ensureMonotonic]
  | cons x xs =>
    have hx : now ≤ x.epoch := h x (by simp)
    simp only [ensureMonotonic, if_pos hx, epochIncreaseABit]
    linarith

theorem applyBatchItems_zero (lr cz : String) (now : Epoch) :
    ∀ (items : List BatchItem), (∀ b ∈ items, b.epoch = 0) →
    ∀ (working : List Event) (dm : Epoch) (mg : Option MergedInfo),
    (∀ x ∈ working.head?, now ≤ x.epoch) →
    (applyBatchItems lr cz now items working dm mg).1.map (·.epoch) =
      epochProgression (ensureMonotonic now working) items.length ∧
    (applyBatchItems lr cz now items working dm mg).2 = (dm, mg) := by
  intro items
  induction items with
  | nil =>
    intro _ working dm mg _
    simp [applyBatchItems, epochProgression]
  | cons item rest ih =>
    intro hzero working dm mg hw
    have hz : item.epoch = 0 := hzero item (by simp)
    have hnd : ¬ (item.epoch ≠ 0 ∧ item.epoch < now) := by
      intro hc; exact hc.1 hz
    simp only [applyBatchItems, if_neg hnd]
    have hnow : now ≤ ensureMonotonic now working := now_le_ensureMonotonic now working hw
    have hw' : ∀ x ∈ (Event.mk (ensureMonotonic now working)
        (canonizePath lr cz item.path) item.type :: working).head?, now ≤ x.epoch := by
      intro x hx
      simp only [List.head?_cons, Option.mem_def, Option.some.injEq] at hx
      subst hx
      exact hnow
    have ihh := ih (fun b hb => hzero b (by simp [hb])) _ dm mg hw'
    refine ⟨?_, ihh.2⟩
    simp only [List.map_cons, List.length_cons]
    rw [epochProgression_cons]
    congr 1
    rw [ihh.1]
    congr 1
    show (if now ≤ (ensureMonotonic now working) then
        epochIncreaseABit (ensureMonotonic now working) else now) =
      ensureMonotonic now working + 1 / 100000
    rw [if_pos hnow]
    rfl

/-- C6: a batch of 10 items with no dirty epochs, applied to a fresh (empty,
never-merged) file at a single clock reading `now`, yields 10 events whose
epochs are pairwise distinct, strictly descending, and separated by at least
10 µs (`1e-5`), the collisions having been broken by `epochIncreaseABit`
through `ensureMonotonic`. -/
theorem c6_batch_update_collision_epochs (rf : RFState) (batch : List BatchItem)
    (now : Epoch) (hrec : rf.recent = []) (hmg : rf.merged = none)
    (hlen : batch.length = 10) (hzero : ∀ b ∈ batch, b.epoch = 0) :
    (batchUpdate rf batch now).recent.length = 10 ∧
    List.Chain' (fun a b => b.epoch + 1 / 100000 ≤ a.epoch)
      (batchUpdate rf batch now).recent := by
  have hb : batch ≠ [] := by
    intro h; rw [h] at hlen; simp at hlen
  have h0 := applyBatchItems_zero rf.localRoot rf.canonize now batch hzero
    rf.recent rf.dirtymark rf.merged (by rw [hrec]; simp)
  set r := applyBatchItems rf.localRoot rf.canonize now batch rf.recent
    rf.dirtymark rf.merged with hr
  have hstart : ensureMonotonic now rf.recent = now := by
    rw [hrec]; rfl
  have hmap : r.1.map (·.epoch) = epochProgression now 10 := by
    rw [h0.1, hstart, hlen]
  have hsnd : r.2 = (rf.dirtymark, rf.merged) := h0.2
  -- the sorted working list
  have hkept : rf.recent.filter (fun ev => ¬ ev.path ∈ r.1.map (·.path)) = [] := by
    rw [hrec]; rfl
  have hmem_now : ∀ ev ∈ sortEventsByEpoch r.1, now ≤ ev.epoch := by
    intro ev hev
    have hev' : ev ∈ r.1 := (mem_sortEventsByEpoch ev r.1).mp hev
    have : ev.epoch ∈ epochProgression now 10 := by
      rw [← hmap]; exact List.mem_map_of_mem _ hev'
    rcases (mem_epochProgression _ _ _).mp this with ⟨j, _, hj⟩
    rw [hj]
    have : (0 : ℚ) ≤ j * (1 / 100000) := by positivity
    linarith
  have hres : (batchUpdate rf batch now).recent = sortEventsByEpoch r.1 := by
    simp only [batchUpdate, if_neg hb, ← hr]
    rw [hsnd]
    simp only [hkept, hmg, List.nil_append]
    exact truncate_none_of_le _ _ _ hmem_now
  have hperm : List.Perm (List.map (·.epoch) (sortEventsByEpoch r.1))
      (epochProgression now 10) := by
    rw [← hmap]
    exact (sortEventsByEpoch_perm r.1).map _
  constructor
  · rw [hres]
    have h1 : (List.map (·.epoch) (sortEventsByEpoch r.1)).length =
        (epochProgression now 10).length := hperm.length_eq
    simpa [epochProgression_length] using h1
  · rw [hres]
    have hnodup : (List.map (·.epoch) (sortEventsByEpoch r.1)).Nodup :=
      (hperm.nodup_iff).mpr (epochProgression_nodup now 10)
    have hne : List.Pairwise (fun a b : Event => a.epoch ≠ b.epoch)
        (sortEventsByEpoch r.1) := (List.pairwise_map).mp hnodup
    have hsorted : List.Pairwise (fun a b : Event => b.epoch ≤ a.epoch)
        (sortEventsByEpoch r.1) := sortEventsByEpoch_sorted r.1
    have hcomb := hsorted.and hne
    have hstep : List.Pairwise (fun a b : Event => b.epoch + 1 / 100000 ≤ a.epoch)
        (sortEventsByEpoch r.1) := by
      refine hcomb.imp_of_mem ?_
      intro a b ha hb hab
      have hae : a.epoch ∈ epochProgression now 10 := by
        rw [← hmap]
        exact List.mem_map_of_mem _ ((mem_sortEventsByEpoch a r.1).mp ha)
      have hbe : b.epoch ∈ epochProgression now 10 := by
        rw [← hmap]
        exact List.mem_map_of_mem _ ((mem_sortEventsByEpoch b r.1).mp hb)
      rcases (mem_epochProgression _ _ _).mp hae with ⟨i, _, hi⟩
      rcases (mem_epochProgression _ _ _).mp hbe with ⟨j, _, hj⟩
      have hji : (j : ℚ) * (1 / 100000) ≤ i * (1 / 100000) := by
        rw [hi, hj] at hab
        linarith [hab.1]
      have hjile : (j : ℚ) ≤ i := by
        have := mul_le_mul_of_nonneg_right hji (by norm_num : (0:ℚ) ≤ 100000)
        calc (j : ℚ) = j * (1 / 100000) * 100000 := by ring
        _ ≤ i * (1 / 100000) * 100000 := by linarith
        _ = i := by ring
      have hjin : j ≤ i := by exact_mod_cast hjile
      have hjneq : j ≠ i := by
        intro h
        exact hab.2 (by rw [hi, hj, h])
      have hjlt : j + 1 ≤ i := Nat.succ_le_of_lt (lt_of_le_of_ne hjin hjneq)
      have : ((j : ℚ) + 1) ≤ i := by exact_mod_cast hjlt
      rw [hi, hj]
      have : ((j : ℚ) + 1) * (1 / 100000) ≤ i * (1 / 100000) := by
        apply mul_le_mul_of_nonneg_right this
        norm_num
      linarith
    exact hstep.chain'

/-- C6 witness: the theorem applied to a concrete 10-item batch on a fresh
file at epoch 1000. -/
theorem c6_witness :
    ((batchUpdate ⟨"1h", "", "", 0, none, none, []⟩
      [⟨"f0", "new", 0⟩, ⟨"f1", "new", 0⟩, ⟨"f2", "new", 0⟩, ⟨"f3", "new", 0⟩,
       ⟨"f4", "new", 0⟩, ⟨"f5", "new", 0⟩, ⟨"f6", "new", 0⟩, ⟨"f7", "new", 0⟩,
       ⟨"f8", "new", 0⟩, ⟨"f9", "new", 0⟩] 1000).recent.length = 10) ∧
    List.Chain' (fun a b => b.epoch + 1 / 100000 ≤ a.epoch)
      ((batchUpdate ⟨"1h", "", "", 0, none, none, []⟩
      [⟨"f0", "new", 0⟩, ⟨"f1", "new", 0⟩, ⟨"f2", "new", 0⟩, ⟨"f3", "new", 0⟩,
       ⟨"f4", "new", 0⟩, ⟨"f5", "new", 0⟩, ⟨"f6", "new", 0⟩, ⟨"f7", "new", 0⟩,
       ⟨"f8", "new", 0⟩, ⟨"f9", "new", 0⟩] 1000).recent) :=
  c6_batch_update_collision_epochs _ _ 1000 rfl rfl (by decide)
    (by intro b hb; fin_cases hb <;> rfl)

end BatchUpdateClaims

section MergeLemmas

theorem lookupPath_mem {m : List Event} {q : String} {y : Event}
    (h : lookupPath m q = some y) : y ∈ m :=
  List.mem_of_find?_eq_some h

theorem lookupPath_path {m : List Event} {q : String} {y : Event}
    (h : lookupPath m q = some y) : y.path = q := by
  have := List.find?_some h
  simpa using this

theorem lookupPath_nil (q : String) : lookupPath [] q = none := rfl

theorem lookupPath_cons (x : Event) (xs : List Event) (q : String) :
    lookupPath (x :: xs) q = if x.path = q then some x else lookupPath xs q := by
  unfold lookupPath
  rw [List.find?_cons]
  by_cases h : x.path = q
  · simp [h]
  · simp [h]

theorem lookupPath_upsertPath_self (m : List Event) (ev : Event) :
    lookupPath (upsertPath m ev) ev.path = some ev := by
  induction m with
  | nil => simp [upsertPath, lookupPath_cons, lookupPath_nil]
  | cons x xs ih =>
    by_cases h : x.path = ev.path
    · simp [upsertPath, h, lookupPath_cons]
    · simp only [upsertPath, if_neg h]
      rw [lookupPath_cons, if_neg h]
      exact ih

theorem lookupPath_upsertPath_ne (m : List Event) (ev : Event) (q : String)
    (h : q ≠ ev.path) :
    lookupPath (upsertPath m ev) q = lookupPath m q := by
  induction m with
  | nil =>
    simp only [upsertPath, lookupPath_cons, lookupPath_nil]
    rw [if_neg (fun hh => h hh.symm)]
  | cons x xs ih =>
    by_cases hx : x.path = ev.path
    · simp only [upsertPath, if_pos hx]
      rw [lookupPath_cons, lookupPath_cons]
      rw [if_neg (fun hh => h hh.symm), if_neg (fun hh => h ((hx.symm.trans hh)).symm)]
    · simp only [upsertPath, if_neg hx]
      rw [lookupPath_cons, lookupPath_cons]
      by_cases hq : x.path = q
      · rw [if_pos hq, if_pos hq]
      · rw [if_neg hq, if_neg hq]
        exact ih

theorem lookupPath_upsertIfNewer_mono (m : List Event) (ev : Event) (q : String)
    {x : Event} (h : lookupPath m q = some x) :
    ∃ y, lookupPath (upsertIfNewer m ev) q = some y ∧
      x.epoch ≤ y.epoch ∧ y.path = x.path := by
  induction m with
  | nil => rw [lookupPath_nil] at h; cases h
  | cons z zs ih =>
    rw [lookupPath_cons] at h
    by_cases hz : z.path = ev.path
    · by_cases hlt : z.epoch < ev.epoch
      · simp only [upsertIfNewer, if_pos hz, if_pos hlt]
        by_cases hq : z.path = q
        · rw [if_pos hq] at h
          have hx : x = z := by simpa using h.symm
          refine ⟨ev, ?_, ?_, ?_⟩
          · rw [lookupPath_cons, if_pos (hz.symm ▸ hq)]
          · rw [hx]; exact le_of_lt hlt
          · rw [hx]; exact hz.symm
        · rw [if_neg hq] at h
          refine ⟨x, ?_, le_refl _, rfl⟩
          rw [lookupPath_cons, if_neg (fun hh => hq ((hz.trans hh.symm.symm)))]
          exact h
      · simp only [upsertIfNewer, if_pos hz, if_neg hlt]
        rw [lookupPath_cons]
        by_cases hq : z.path = q
        · rw [if_pos hq] at h
          rw [if_pos hq]
          have hx : x = z := by simpa using h.symm
          exact ⟨z, rfl, by rw [hx], by rw [hx]⟩
        · rw [if_neg hq] at h
          rw [if_neg hq]
          exact ⟨x, h, le_refl _, rfl⟩
    · simp only [upsertIfNewer, if_neg hz]
      rw [lookupPath_cons]
      by_cases hq : z.path = q
      · rw [if_pos hq] at h
        rw [if_pos hq]
        have hx : x = z := by simpa using h.symm
        exact ⟨z, rfl, by rw [hx], by rw [hx]⟩
      · rw [if_neg hq] at h
        rw [if_neg hq]
        exact ih h

theorem lookupPath_upsertIfNewer_self (m : List Event) (ev : Event) :
    ∃ y, lookupPath (upsertIfNewer m ev) ev.path = some y ∧
      ev.epoch ≤ y.epoch ∧ y.path = ev.path := by
  induction m with
  | nil =>
    refine ⟨ev, ?_, le_refl _, rfl⟩
    simp [upsertIfNewer, lookupPath_cons]
  | cons z zs ih =>
    by_cases hz : z.path = ev.path
    · by_cases hlt : z.epoch < ev.epoch
      · refine ⟨ev, ?_, le_refl _, rfl⟩
        simp only [upsertIfNewer, if_pos hz, if_pos hlt]
        rw [lookupPath_cons, if_pos rfl]
      · refine ⟨z, ?_, le_of_not_lt hlt, hz⟩
        simp only [upsertIfNewer, if_pos hz, if_neg hlt]
        rw [lookupPath_cons, if_pos hz]
    · simp only [upsertIfNewer, if_neg hz]
      rcases ih with ⟨y, hy, hle, hp⟩
      refine ⟨y, ?_, hle, hp⟩
      rw [lookupPath_cons, if_neg hz]
      exact hy

theorem mergeInsertSource_cons (oa : Epoch) (m : List Event) (ev : Event)
    (l : List Event) :
    mergeInsertSource oa m (ev :: l) =
      if oa ≠ 0 ∧ ev.epoch < oa then mergeInsertSource oa m l
      else mergeInsertSource oa (upsertIfNewer m ev) l := by
  by_cases hc : oa ≠ 0 ∧ ev.epoch < oa
  · simp only [mergeInsertSource, List.foldl_cons, if_pos hc]
  · simp only [mergeInsertSource, List.foldl_cons, if_neg hc]

theorem mergeFilterInsertTarget_cons (oa : Epoch) (m : List Event) (ev : Event)
    (l : List Event) :
    mergeFilterInsertTarget oa m (ev :: l) =
      if oa ≠ 0 ∧ ev.epoch < oa then mergeFilterInsertTarget oa m l
      else mergeFilterInsertTarget oa (upsertPath m ev) l := by
  by_cases hc : oa ≠ 0 ∧ ev.epoch < oa
  · simp only [mergeFilterInsertTarget, List.foldl_cons, if_pos hc]
  · simp only [mergeFilterInsertTarget, List.foldl_cons, if_neg hc]

theorem mergeInsertSource_mono (oa : Epoch) (l : List Event) :
    ∀ (m : List Event) (q : String) (x : Event), lookupPath m q = some x →
    ∃ y, lookupPath (mergeInsertSource oa m l) q = some y ∧
      x.epoch ≤ y.epoch ∧ y.path = x.path := by
  induction l with
  | nil => intro m q x h; exact ⟨x, h, le_refl _, rfl⟩
  | cons ev rest ih =>
    intro m q x h
    rw [mergeInsertSource_cons]
    by_cases hc : oa ≠ 0 ∧ ev.epoch < oa
    · rw [if_pos hc]
      exact ih m q x h
    · rw [if_neg hc]
      rcases lookupPath_upsertIfNewer_mono m ev q h with ⟨y, hy, hle, hp⟩
      rcases ih _ q y hy with ⟨y', hy', hle', hp'⟩
      exact ⟨y', hy', le_trans hle hle', hp'.trans hp⟩

theorem mergeInsertSource_mem (l : List Event) :
    ∀ (m : List Event) (ev : Event), ev ∈ l →
    ∃ y, lookupPath (mergeInsertSource 0 m l) ev.path = some y ∧
      ev.epoch ≤ y.epoch ∧ y.path = ev.path := by
  induction l with
  | nil => intro m ev h; cases h
  | cons hd rest ih =>
    intro m ev h
    rw [mergeInsertSource_cons, if_neg (by simp)]
    rcases List.mem_cons.mp h with rfl | h
    · rcases lookupPath_upsertIfNewer_self m ev with ⟨y, hy, hle, hp⟩
      rcases mergeInsertSource_mono 0 rest _ ev.path y hy with ⟨y', hy', hle', hp'⟩
      exact ⟨y', hy', le_trans hle hle', hp'.trans hp⟩
    · exact ih _ ev h

theorem mergeFilterInsertTarget_keep (oa : Epoch) (l : List Event) :
    ∀ (m : List Event) (q : String), (∀ ev ∈ l, ev.path ≠ q) →
    lookupPath (mergeFilterInsertTarget oa m l) q = lookupPath m q := by
  induction l with
  | nil => intro m q _; rfl
  | cons hd rest ih =>
    intro m q hq
    rw [mergeFilterInsertTarget_cons]
    by_cases hc : oa ≠ 0 ∧ hd.epoch < oa
    · rw [if_pos hc]
      exact ih m q (fun ev hev => hq ev (by simp [hev]))
    · rw [if_neg hc]
      rw [ih _ q (fun ev hev => hq ev (by simp [hev]))]
      exact lookupPath_upsertPath_ne m hd q (fun h => hq hd (by simp) h.symm)

theorem mergeFilterInsertTarget_mem (l : List Event) :
    ∀ (m : List Event), (l.map Event.path).Nodup → ∀ ev ∈ l,
    lookupPath (mergeFilterInsertTarget 0 m l) ev.path = some ev := by
  induction l with
  | nil => intro m _ ev h; cases h
  | cons hd rest ih =>
    intro m hnd ev h
    have hnd' : (rest.map Event.path).Nodup := (List.nodup_cons.mp hnd).2
    have hhd : hd.path ∉ rest.map Event.path := (List.nodup_cons.mp hnd).1
    rw [mergeFilterInsertTarget_cons, if_neg (by simp)]
    rcases List.mem_cons.mp h with rfl | h
    · rw [mergeFilterInsertTarget_keep 0 rest _ ev.path
        (fun e he hp => hhd (hp ▸ List.mem_map_of_mem _ he))]
      exact lookupPath_upsertPath_self m ev
    · exact ih _ hnd' ev h

theorem bumpEpoch_ge (fuel : ℕ) : ∀ (seen : List Epoch) (e : Epoch),
    e ≤ bumpEpoch fuel seen e := by
  induction fuel with
  | zero => intro seen e; simp [bumpEpoch]
  | succ n ih =>
    intro seen e
    simp only [bumpEpoch]
    split
    · have h1 : e ≤ epochIncreaseABit e := by
        simp only [epochIncreaseABit]; linarith
      exact le_trans h1 (ih seen _)
    · exact le_refl _

theorem deduplicateEpochsAux_cons (seen : List Epoch) (hd : Event)
    (rest : List Event) :
    deduplicateEpochsAux seen (hd :: rest) =
      ⟨bumpEpoch (seen.length + 1) seen hd.epoch, hd.path, hd.type⟩ ::
        deduplicateEpochsAux
          (bumpEpoch (seen.length + 1) seen hd.epoch :: seen) rest := rfl

theorem deduplicateEpochsAux_retains (l : List Event) :
    ∀ (seen : List Epoch) (ev : Event), ev ∈ l →
    ∃ ev', ev' ∈ deduplicateEpochsAux seen l ∧ ev'.path = ev.path ∧
      ev'.type = ev.type ∧ ev.epoch ≤ ev'.epoch := by
  induction l with
  | nil => intro seen ev h; cases h
  | cons hd rest ih =>
    intro seen ev h
    rw [deduplicateEpochsAux_cons]
    rcases List.mem_cons.mp h with rfl | h
    · exact ⟨⟨bumpEpoch (seen.length + 1) seen ev.epoch, ev.path, ev.type⟩,
        List.mem_cons_self _ _, rfl, rfl, bumpEpoch_ge _ _ _⟩
    · rcases ih (bumpEpoch (seen.length + 1) seen hd.epoch :: seen) ev h with
        ⟨ev', hmem, hp, ht, hle⟩
      exact ⟨ev', List.mem_cons_of_mem _ hmem, hp, ht, hle⟩

theorem deduplicateEpochs_retains (events : List Event) (ev : Event)
    (h : ev ∈ events) :
    ∃ ev', ev' ∈ deduplicateEpochs events ∧ ev'.path = ev.path ∧
      ev.epoch ≤ ev'.epoch := by
  unfold deduplicateEpochs
  split
  · exact ⟨ev, h, rfl, le_refl _⟩
  · rcases deduplicateEpochsAux_retains events [] ev h with ⟨ev', hmem, hp, _, hle⟩
    exact ⟨ev', (mem_sortEventsByEpoch ev' _).mpr hmem, hp, hle⟩

/-- Retention through the whole back half of `mergeFrom`: any map entry
survives sorting and epoch deduplication with the same path and an equal or
larger epoch. -/
theorem mergeBackHalf_retains (m : List Event) (y : Event) (h : y ∈ m) :
    ∃ y', y' ∈ deduplicateEpochs (sortEventsByEpoch m) ∧
      y'.path = y.path ∧ y.epoch ≤ y'.epoch := by
  have h1 : y ∈ sortEventsByEpoch m := (mem_sortEventsByEpoch y m).mpr h
  exact deduplicateEpochs_retains _ y h1

end MergeLemmas

section MergeClaims

/-- C1: a first merge - matching dirtymarks and no merged metadata - computes
`oldest_allowed = 0`, so every source event, however old, survives into the
merged target (same path, same or newer epoch).  The third conjunct shows,
at the concrete scenario of an empty 1W target receiving a 10-day-old event
at `now = 1000000`, that the merged list is assigned without re-applying
update-time truncation: the old event is in the result although `truncate`
would have dropped it. -/
theorem c1_first_merge_keeps_all_source_events (tgt src : RFState) (now : Epoch)
    (hmg : tgt.merged = none) (hdm : tgt.dirtymark = src.dirtymark) :
    mergeOldestAllowed tgt src now = 0 ∧
    (∀ ev ∈ src.recent, ∃ ev', ev' ∈ (mergeFrom tgt src now).recent ∧
      ev'.path = ev.path ∧ ev.epoch ≤ ev'.epoch) ∧
    ((∃ ev, ev ∈ (mergeFrom ⟨"1W", "", "", 5, none, none, []⟩
        ⟨"1h", "", "", 5, none, none,
          [⟨1000000, "new.txt", "new"⟩, ⟨136000, "old.txt", "new"⟩]⟩
        1000000).recent ∧ ev.path = "old.txt") ∧
      (∀ ev ∈ truncate none "1W" 1000000
          (mergeFrom ⟨"1W", "", "", 5, none, none, []⟩
            ⟨"1h", "", "", 5, none, none,
              [⟨1000000, "new.txt", "new"⟩, ⟨136000, "old.txt", "new"⟩]⟩
            1000000).recent, ev.path ≠ "old.txt")) := by
  have hoa : mergeOldestAllowed tgt src now = 0 := by
    unfold mergeOldestAllowed
    rw [if_neg (by simp [hdm]), hmg]
  refine ⟨hoa, ?_, ?_⟩
  · intro ev hev
    rcases mergeInsertSource_mem src.recent
        (mergeFilterInsertTarget 0 [] tgt.recent) ev hev with ⟨y, hy, hle, hp⟩
    have hym : y ∈ mergeInsertSource 0 (mergeFilterInsertTarget 0 [] tgt.recent)
        src.recent := lookupPath_mem hy
    rcases mergeBackHalf_retains _ y hym with ⟨y', hy', hp', hle'⟩
    refine ⟨y', ?_, by rw [hp', hp], le_trans hle hle'⟩
    simp only [mergeFrom, hoa]
    exact hy'
  · have hcalc : (mergeFrom ⟨"1W", "", "", 5, none, none, []⟩
        ⟨"1h", "", "", 5, none, none,
          [⟨1000000, "new.txt", "new"⟩, ⟨136000, "old.txt", "new"⟩]⟩
        1000000).recent =
        [⟨1000000, "new.txt", "new"⟩, ⟨136000, "old.txt", "new"⟩] := rfl
    constructor
    · refine ⟨⟨136000, "old.txt", "new"⟩, ?_, rfl⟩
      rw [hcalc]
      decide
    · rw [hcalc]
      have htr : truncate none "1W" 1000000
          [⟨1000000, "new.txt", "new"⟩, ⟨136000, "old.txt", "new"⟩] =
          [⟨1000000, "new.txt", "new"⟩] := by
        have hz : intervalSecsFor "1W" ≠ ZSeconds := by decide
        have hval : intervalSecsFor "1W" = 604800 := by decide
        simp only [truncate, truncate.truncateByInterval, hval, if_neg hz]
        norm_num [List.filter]
        simp [ZSeconds]
      rw [htr]
      decide

/-- C1 witness: the first conjunct of the theorem instantiated at the
concrete first-merge scenario. -/
theorem c1_witness :
    mergeOldestAllowed ⟨"1W", "", "", 5, none, none, []⟩
      ⟨"1h", "", "", 5, none, none,
        [⟨1000000, "new.txt", "new"⟩, ⟨136000, "old.txt", "new"⟩]⟩ 1000000 = 0 :=
  (c1_first_merge_keeps_all_source_events _ _ 1000000 rfl rfl).1

/-- C3: when the dirtymarks differ at entry, `oldest_allowed` is 0 - the
comparison happens before any metadata is copied - so the merged target
retains every event of both files regardless of age (per path the newest
event wins, hence "same path, same or newer epoch"); the source dirtymark is
copied only afterwards. -/
theorem c3_dirtymark_mismatch_keeps_everything (tgt src : RFState) (now : Epoch)
    (hdm : tgt.dirtymark ≠ src.dirtymark)
    (hnodup : (tgt.recent.map Event.path).Nodup) :
    mergeOldestAllowed tgt src now = 0 ∧
    (∀ ev, ev ∈ tgt.recent ∨ ev ∈ src.recent →
      ∃ ev', ev' ∈ (mergeFrom tgt src now).recent ∧
        ev'.path = ev.path ∧ ev.epoch ≤ ev'.epoch) ∧
    (mergeFrom tgt src now).dirtymark = src.dirtymark := by
  have hoa : mergeOldestAllowed tgt src now = 0 := by
    unfold mergeOldestAllowed
    rw [if_pos hdm]
  refine ⟨hoa, ?_, ?_⟩
  · intro ev hev
    have hentry : ∃ y, lookupPath (mergeInsertSource 0
        (mergeFilterInsertTarget 0 [] tgt.recent) src.recent) ev.path = some y ∧
        ev.epoch ≤ y.epoch ∧ y.path = ev.path := by
      rcases hev with hev | hev
      · have h1 := mergeFilterInsertTarget_mem tgt.recent [] hnodup ev hev
        rcases mergeInsertSource_mono 0 src.recent _ ev.path ev h1 with
          ⟨y, hy, hle, hp⟩
        exact ⟨y, hy, hle, hp⟩
      · exact mergeInsertSource_mem src.recent _ ev hev
    rcases hentry with ⟨y, hy, hle, hp⟩
    rcases mergeBackHalf_retains _ y (lookupPath_mem hy) with ⟨y', hy', hp', hle'⟩
    refine ⟨y', ?_, by rw [hp', hp], le_trans hle hle'⟩
    simp only [mergeFrom, hoa]
    exact hy'
  · simp only [mergeFrom]
    rw [if_pos (Or.inr hdm)]

/-- C3 witness: the theorem applied at a concrete dirtymark mismatch, with a
10-day-old target event and a current source event both surviving. -/
theorem c3_witness :
    mergeOldestAllowed ⟨"1W", "", "", 0, none, none,
        [⟨136000, "old.txt", "new"⟩]⟩
      ⟨"1h", "", "", 1000000, none, none, [⟨1000000, "new.txt", "new"⟩]⟩
      1000000 = 0 ∧
    (mergeFrom ⟨"1W", "", "", 0, none, none, [⟨136000, "old.txt", "new"⟩]⟩
      ⟨"1h", "", "", 1000000, none, none, [⟨1000000, "new.txt", "new"⟩]⟩
      1000000).dirtymark = 1000000 := by
  have h := c3_dirtymark_mismatch_keeps_everything
    ⟨"1W", "", "", 0, none, none, [⟨136000, "old.txt", "new"⟩]⟩
    ⟨"1h", "", "", 1000000, none, none, [⟨1000000, "new.txt", "new"⟩]⟩
    1000000 (by decide) (by decide)
  exact ⟨h.1, h.2.2⟩

end MergeClaims

section AggregateClaims

/-- C2: in `aggregate(force=false)`, a chain step whose source is not the
principal merges iff `shouldMergeByAge` approves the target against
`prevSrc` - the interval of the level before the current source - and, when
the target file exists with age `a`, that is iff `a` strictly exceeds
`interval_secs(prev_src)`.  The third conjunct is the literal scenario:
principal 1h just written, 6h two hours old, 1d and 1W eight hours old;
`aggregate(false)` rewrites all of 6h, 1d and 1W - 1W because its age
(28800 s) exceeds 6h's interval (21600 s), even though it does not exceed
1d's interval (86400 s). -/
theorem c2_aggregate_age_check_against_prev_source (principal : String)
    (env : String → FileStatObs) (src prevSrc t : String) (rest : List String)
    (hsrc : src ≠ principal) :
    (t ∈ aggregateChain false principal env src prevSrc (t :: rest) ↔
      shouldMergeByAge (env t) prevSrc = true) ∧
    (∀ a : ℚ, env t = FileStatObs.age a →
      (t ∈ aggregateChain false principal env src prevSrc (t :: rest) ↔
        (intervalSecsFor prevSrc : ℚ) < a)) ∧
    (aggregate false "1h" ["6h", "1d", "1W"]
        (fun s => if s = "6h" then FileStatObs.age 7200
          else if s = "1d" then FileStatObs.age 28800
          else if s = "1W" then FileStatObs.age 28800
          else FileStatObs.absent) = ["6h", "1d", "1W"] ∧
      (intervalSecsFor "6h" : ℚ) < 28800 ∧
      ¬ (intervalSecsFor "1d" : ℚ) < 28800) := by
  have hbeq : (src == principal) = false := beq_eq_false_iff_ne.mpr hsrc
  have hfirst : t ∈ aggregateChain false principal env src prevSrc (t :: rest) ↔
      shouldMergeByAge (env t) prevSrc = true := by
    simp only [aggregateChain, hbeq, Bool.false_or]
    cases hS : shouldMergeByAge (env t) prevSrc
    · simp
    · simp
  refine ⟨hfirst, ?_, ?_⟩
  · intro a ha
    rw [hfirst, ha]
    simp [shouldMergeByAge]
  · refine ⟨by decide, by decide, by decide⟩

/-- C2 witness: the step rule applied at source 6h, previous source 1h, and
a 1d target whose file is eight hours old. -/
theorem c2_witness :
    "1d" ∈ aggregateChain false "1h"
      (fun s => if s = "6h" then FileStatObs.age 7200
        else if s = "1d" then FileStatObs.age 28800
        else if s = "1W" then FileStatObs.age 28800
        else FileStatObs.absent) "6h" "1h" ["1d"] :=
  ((c2_aggregate_age_check_against_prev_source "1h" _ "6h" "1h" "1d" []
    (by decide)).1).mpr (by decide)

end AggregateClaims

section StateMapLemmas

theorem mem_upsertIfNewer {m : List Event} {ev x : Event}
    (h : x ∈ upsertIfNewer m ev) : x ∈ m ∨ x = ev := by
  induction m with
  | nil => simp [upsertIfNewer] at h; exact Or.inr h
  | cons z zs ih =>
    by_cases hz : z.path = ev.path
    · by_cases hlt : z.epoch < ev.epoch
      · simp only [upsertIfNewer, if_pos hz, if_pos hlt] at h
        rcases List.mem_cons.mp h with rfl | h
        · exact Or.inr rfl
        · exact Or.inl (List.mem_cons_of_mem _ h)
      · simp only [upsertIfNewer, if_pos hz, if_neg hlt] at h
        exact Or.inl h
    · simp only [upsertIfNewer, if_neg hz] at h
      rcases List.mem_cons.mp h with rfl | h
      · exact Or.inl (List.mem_cons_self _ _)
      · rcases ih h with h | h
        · exact Or.inl (List.mem_cons_of_mem _ h)
        · exact Or.inr h

theorem paths_nodup_upsertIfNewer {m : List Event} (ev : Event)
    (h : (m.map Event.path).Nodup) :
    ((upsertIfNewer m ev).map Event.path).Nodup := by
  induction m with
  | nil => simp [upsertIfNewer]
  | cons z zs ih =>
    have hz1 : z.path ∉ zs.map Event.path := (List.nodup_cons.mp h).1
    have hz2 : (zs.map Event.path).Nodup := (List.nodup_cons.mp h).2
    by_cases hz : z.path = ev.path
    · by_cases hlt : z.epoch < ev.epoch
      · simp only [upsertIfNewer, if_pos hz, if_pos hlt, List.map_cons]
        exact List.nodup_cons.mpr ⟨by rw [← hz]; exact hz1, hz2⟩
      · simp only [upsertIfNewer, if_pos hz, if_neg hlt, List.map_cons]
        exact h
    · simp only [upsertIfNewer, if_neg hz, List.map_cons]
      refine List.nodup_cons.mpr ⟨?_, ih hz2⟩
      intro hmem
      rcases List.mem_map.mp hmem with ⟨y, hy, hyp⟩
      rcases mem_upsertIfNewer hy with hy' | rfl
      · exact hz1 (hyp ▸ List.mem_map_of_mem _ hy')
      · exact hz hyp.symm

theorem foldUpsert_subset (l : List Event) :
    ∀ (m : List Event) (x : Event),
    x ∈ List.foldl (fun m ev => upsertIfNewer m ev) m l → x ∈ m ∨ x ∈ l := by
  induction l with
  | nil => intro m x h; exact Or.inl h
  | cons ev rest ih =>
    intro m x h
    simp only [List.foldl_cons] at h
    rcases ih _ x h with h | h
    · rcases mem_upsertIfNewer h with h | rfl
      · exact Or.inl h
      · exact Or.inr (List.mem_cons_self _ _)
    · exact Or.inr (List.mem_cons_of_mem _ h)

theorem foldUpsert_paths_nodup (l : List Event) :
    ∀ (m : List Event), (m.map Event.path).Nodup →
    ((List.foldl (fun m ev => upsertIfNewer m ev) m l).map Event.path).Nodup := by
  induction l with
  | nil => intro m h; exact h
  | cons ev rest ih =>
    intro m h
    simp only [List.foldl_cons]
    exact ih _ (paths_nodup_upsertIfNewer ev h)

theorem mem_buildStateMap_subset {events : List Event} {x : Event}
    (h : x ∈ buildStateMap events) : x ∈ events := by
  rcases foldUpsert_subset events [] x h with h | h
  · cases h
  · exact h

theorem buildStateMap_paths_nodup (events : List Event) :
    ((buildStateMap events).map Event.path).Nodup :=
  foldUpsert_paths_nodup events [] (by simp)

theorem buildStateMap_eq_mergeInsertSource (events : List Event) :
    ∀ m, List.foldl (fun m ev => upsertIfNewer m ev) m events =
      mergeInsertSource 0 m events := by
  induction events with
  | nil => intro m; rfl
  | cons ev rest ih =>
    intro m
    rw [mergeInsertSource_cons, if_neg (by simp), List.foldl_cons]
    exact ih _

theorem lookupPath_of_mem_nodup {m : List Event} {w : Event}
    (hnd : (m.map Event.path).Nodup) (h : w ∈ m) :
    lookupPath m w.path = some w := by
  induction m with
  | nil => cases h
  | cons z zs ih =>
    have hz1 : z.path ∉ zs.map Event.path := (List.nodup_cons.mp hnd).1
    have hz2 : (zs.map Event.path).Nodup := (List.nodup_cons.mp hnd).2
    rcases List.mem_cons.mp h with rfl | h
    · rw [lookupPath_cons, if_pos rfl]
    · rw [lookupPath_cons]
      have hne : z.path ≠ w.path := by
        intro he
        exact hz1 (he ▸ List.mem_map_of_mem _ h)
      rw [if_neg hne]
      exact ih hz2 h

theorem buildStateMap_entry_max {events : List Event} {ev w : Event}
    (hev : ev ∈ events)
    (hw : lookupPath (buildStateMap events) ev.path = some w) :
    ev.epoch ≤ w.epoch := by
  have h1 : buildStateMap events = mergeInsertSource 0 [] events := by
    unfold buildStateMap
    exact buildStateMap_eq_mergeInsertSource events []
  rcases mergeInsertSource_mem events [] ev hev with ⟨y, hy, hle, _⟩
  rw [← h1] at hy
  rw [hw] at hy
  cases hy
  exact hle

end StateMapLemmas

section FsckStateClaims

/-- C5: the fsck index-to-disk state includes a path iff the event with the
largest epoch for that path across all streamed files has type `new`
(assuming, per the recentfile invariants, that a path's events carry
pairwise-distinct epochs); with events restricted to types `new`/`delete`,
the set of paths the index-to-disk check verifies is exactly that state.
The last conjunct is the literal scenario: RECENT-1h holding
`{"test.txt","delete",now}` and RECENT-6h holding `{"test.txt","new",
now-3600}` with `test.txt` absent from disk yields 0 issues. -/
theorem c5_index_state_latest_event_wins (events : List Event) (p : String)
    (huniq : ∀ e1 ∈ events, ∀ e2 ∈ events,
      e1.path = e2.path → e1.epoch = e2.epoch → e1 = e2) :
    (p ∈ buildCurrentIndexState events ↔
      ∃ ev ∈ events, ev.path = p ∧ ev.type = "new" ∧
        ∀ ev' ∈ events, ev'.path = p → ev'.epoch ≤ ev.epoch) ∧
    ((∀ ev ∈ events, ev.type = "new" ∨ ev.type = "delete") →
      (p ∈ checkedPaths events ↔ p ∈ buildCurrentIndexState events)) ∧
    (∀ now : Epoch,
      verifyEventsIssues
        [⟨now, "test.txt", "delete"⟩, ⟨now - 3600, "test.txt", "new"⟩]
        (fun _ => false) = 0 ∧
      "test.txt" ∉ buildCurrentIndexState
        [⟨now, "test.txt", "delete"⟩, ⟨now - 3600, "test.txt", "new"⟩]) := by
  refine ⟨?_, ?_, ?_⟩
  · constructor
    · intro hp
      rcases List.mem_map.mp hp with ⟨w, hwf, hwp⟩
      have hw1 := List.mem_filter.mp hwf
      have hwm : w ∈ events := mem_buildStateMap_subset hw1.1
      have hwt : w.type = "new" := by simpa using hw1.2
      refine ⟨w, hwm, hwp, hwt, ?_⟩
      intro ev' hev' hp'
      have hl : lookupPath (buildStateMap events) ev'.path = some w := by
        rw [hp', ← hwp]
        exact lookupPath_of_mem_nodup (buildStateMap_paths_nodup events) hw1.1
      exact buildStateMap_entry_max hev' hl
    · rintro ⟨ev, hev, hevp, hevt, hmax⟩
      have h1 : buildStateMap events = mergeInsertSource 0 [] events := by
        unfold buildStateMap
        exact buildStateMap_eq_mergeInsertSource events []
      rcases mergeInsertSource_mem events [] ev hev with ⟨y, hy, hle, hyp⟩
      rw [← h1] at hy
      have hym : y ∈ buildStateMap events := lookupPath_mem hy
      have hyev : y ∈ events := mem_buildStateMap_subset hym
      have hge : y.epoch ≤ ev.epoch := hmax y hyev (hyp.trans hevp)
      have hyeq : y = ev := huniq y hyev ev hev hyp (le_antisymm hge hle)
      refine List.mem_map.mpr ⟨y, List.mem_filter.mpr ⟨hym, ?_⟩, hyp.trans hevp⟩
      simp [hyeq, hevt]
  · intro htypes
    constructor
    · intro hp
      rcases List.mem_map.mp hp with ⟨w, hwf, hwp⟩
      have hw1 := List.mem_filter.mp hwf
      have hwm : w ∈ events := mem_buildStateMap_subset hw1.1
      have hwt : w.type ≠ "delete" := by simpa using hw1.2
      have hwn : w.type = "new" := by
        rcases htypes w hwm with h | h
        · exact h
        · exact absurd h hwt
      exact List.mem_map.mpr ⟨w, List.mem_filter.mpr ⟨hw1.1, by simp [hwn]⟩, hwp⟩
    · intro hp
      rcases List.mem_map.mp hp with ⟨w, hwf, hwp⟩
      have hw1 := List.mem_filter.mp hwf
      have hwn : w.type = "new" := by simpa using hw1.2
      refine List.mem_map.mpr ⟨w, List.mem_filter.mpr ⟨hw1.1, ?_⟩, hwp⟩
      simp [hwn]
  · intro now
    have hmap : buildStateMap
        [⟨now, "test.txt", "delete"⟩, ⟨now - 3600, "test.txt", "new"⟩] =
        [⟨now, "test.txt", "delete"⟩] := by
      unfold buildStateMap
      simp only [List.foldl_cons, List.foldl_nil]
      rw [show upsertIfNewer [] (⟨now, "test.txt", "delete"⟩ : Event) =
        [⟨now, "test.txt", "delete"⟩] from rfl]
      unfold upsertIfNewer
      split_ifs with h1 h2
      · exfalso
        simp only at h2
        linarith
      · rfl
      · exact absurd rfl h1
    constructor
    · simp [verifyEventsIssues, hmap]
    · simp [buildCurrentIndexState, hmap]

/-- C5 witness: the winner rule applied at the concrete two-event scenario,
plus its zero-issue consequence at a concrete clock reading. -/
theorem c5_witness :
    ("x.txt" ∈ buildCurrentIndexState
      [⟨200, "x.txt", "new"⟩, ⟨100, "x.txt", "delete"⟩]) ∧
    verifyEventsIssues
      [⟨1000000, "test.txt", "delete"⟩, ⟨1000000 - 3600, "test.txt", "new"⟩]
      (fun _ => false) = 0 := by
  have h := c5_index_state_latest_event_wins
    [⟨200, "x.txt", "new"⟩, ⟨100, "x.txt", "delete"⟩] "x.txt" (by decide)
  refine ⟨?_, ?_⟩
  · refine h.1.mpr ⟨⟨200, "x.txt", "new"⟩, by simp, rfl, rfl, ?_⟩
    intro ev' hev' _
    fin_cases hev' <;> norm_num
  · exact (h.2.2 1000000).1

/-- C4: evaluating the `repairIndexOrphans` batch construction on a walk
holding the root RECENT control files (`RECENT-1h.yaml`, `RECENT-1h.lock`,
`RECENT.recent` - all skipped) and a disk orphan `a.txt` with mtime 100 s
(absent from the index): the emitted `new` event carries epoch 100 -
quantized from the file's mtime - and not the current repair-time epoch
(1000 in the scenario), contradicting the spec and AGGREGATION_BUGS.md
Bug #1, which require `EpochNow()`. -/
theorem c4_repair_orphan_epoch_is_mtime :
    repairIndexOrphansBatch "RECENT" ".yaml" (fun _ => false)
      [⟨"RECENT-1h.yaml", 500000000⟩, ⟨"RECENT-1h.lock", 600000000⟩,
        ⟨"RECENT.recent", 700000000⟩, ⟨"a.txt", 100000000⟩] =
      [⟨"a.txt", "new", 100⟩] ∧
    ∀ now : Epoch, now ≠ 100 →
      repairIndexOrphansBatch "RECENT" ".yaml" (fun _ => false)
        [⟨"RECENT-1h.yaml", 500000000⟩, ⟨"RECENT-1h.lock", 600000000⟩,
          ⟨"RECENT.recent", 700000000⟩, ⟨"a.txt", 100000000⟩] ≠
        [⟨"a.txt", "new", now⟩] := by
  have hs1 : repairOrphanSkip "RECENT" ".yaml" "RECENT-1h.yaml" = true := by
    decide
  have hs2 : repairOrphanSkip "RECENT" ".yaml" "RECENT-1h.lock" = true := by
    decide
  have hs3 : repairOrphanSkip "RECENT" ".yaml" "RECENT.recent" = true := by
    decide
  have hskip : repairOrphanSkip "RECENT" ".yaml" "a.txt" = false := by decide
  have hq : epochFromTime 100000000 = 100 := by
    unfold epochFromTime
    rw [show Int.tdiv (100000000 : ℤ) 10 = 10000000 from by decide]
    norm_num
  have hbatch : repairIndexOrphansBatch "RECENT" ".yaml" (fun _ => false)
      [⟨"RECENT-1h.yaml", 500000000⟩, ⟨"RECENT-1h.lock", 600000000⟩,
        ⟨"RECENT.recent", 700000000⟩, ⟨"a.txt", 100000000⟩] =
      [⟨"a.txt", "new", 100⟩] := by
    unfold repairIndexOrphansBatch
    simp only [List.foldl_cons, List.foldl_nil, hs1, hs2, hs3, hskip, if_true,
      if_false, hq, Bool.false_eq_true, List.nil_append]
  refine ⟨hbatch, ?_⟩
  intro now hnow heq
  rw [hbatch] at heq
  have h1 := List.head_eq_of_cons_eq heq.symm
  have h2 : now = 100 := congrArg BatchItem.epoch h1
  exact hnow h2

end FsckStateClaims

section LockLemmas

theorem lockStep_shape (obs : LockObs) (alive : ℤ → Bool) (timeout d : ℚ) :
    lockStep obs alive timeout d = (.acquired, d) ∨
    lockStep obs alive timeout d = (.failed, d) ∨
    lockStep obs alive timeout d = (.removedStale, d) ∨
    lockStep obs alive timeout d = (.timedOut, d) ∨
    lockStep obs alive timeout d = (.slept d, min (2 * d) 1000) := by
  unfold lockStep
  rcases obs with ⟨mk, pf, el⟩
  cases mk
  · tauto
  · cases checkStaleLock pf alive
    · tauto
    · dsimp only
      split_ifs
      · tauto
      · tauto
    · tauto
  · tauto

theorem min_double_cap (j : ℕ) :
    min (2 * min ((10 : ℚ) * 2 ^ j) 1000) 1000 = min ((10 : ℚ) * 2 ^ (j + 1)) 1000 := by
  rcases le_total ((10 : ℚ) * 2 ^ j) 1000 with h | h
  · rw [min_eq_left h]
    rw [pow_succ]
    ring_nf
  · rw [min_eq_right h]
    rw [min_eq_right (by norm_num)]
    rw [min_eq_right]
    calc (1000 : ℚ) ≤ 10 * 2 ^ j := h
    _ ≤ 10 * 2 ^ (j + 1) := by
      have h2 : (2 : ℚ) ^ j ≤ 2 ^ (j + 1) := by
        apply pow_le_pow_right (by norm_num)
        omega
      linarith

theorem lockRun_sleeps (alive : ℤ → Bool) (timeout : ℚ) :
    ∀ (trace : List LockObs) (j k : ℕ),
      (lockRun alive timeout trace (min ((10 : ℚ) * 2 ^ j) 1000)).2.get? k =
          some (min ((10 : ℚ) * 2 ^ (j + k)) 1000) ∨
      (lockRun alive timeout trace (min ((10 : ℚ) * 2 ^ j) 1000)).2.get? k =
          none := by
  intro trace
  induction trace with
  | nil =>
    intro j k
    simp [lockRun]
  | cons obs rest ih =>
    intro j k
    rcases lockStep_shape obs alive timeout (min ((10 : ℚ) * 2 ^ j) 1000) with
      hs | hs | hs | hs | hs
    · simp [lockRun, hs]
    · simp [lockRun, hs]
    · simp only [lockRun, hs]
      exact ih j k
    · simp [lockRun, hs]
    · simp only [lockRun, hs]
      rw [min_double_cap j]
      cases k with
      | zero => simp
      | succ k' =>
        simp only [List.get?_cons_succ]
        rcases ih (j + 1) k' with h | h
        · left
          have harith : j + 1 + k' = j + (k' + 1) := by omega
          rw [h, harith]
        · right
          exact h

end LockLemmas

section LockClaims

/-- C8: on finding the lock directory already existing, `Lock` removes it
recursively and retries iff the `process` file is missing, empty,
unparseable, or names a dead PID; otherwise (live owner) it either times
out once the elapsed time exceeds the timeout or sleeps the current backoff
and doubles it up to the 1 s cap - so the k-th sleep of a run lasts
`min(10 ms * 2^k, 1000 ms)`, starting at 10 ms. -/
theorem c8_lock_stale_removal_and_backoff (obs : LockObs) (alive : ℤ → Bool)
    (timeout d : ℚ) (hm : obs.mkdir = MkdirResult.eexist) :
    (∀ r : ReadFileResult, checkStaleLock r alive = .stale ↔
      (r = .missing ∨ r = .content "" ∨
        (∃ s, r = .content s ∧ s ≠ "" ∧ atoi (stripTrailingNewline s) = none) ∨
        (∃ s pid, r = .content s ∧ s ≠ "" ∧
          atoi (stripTrailingNewline s) = some pid ∧ alive pid = false))) ∧
    ((lockStep obs alive timeout d).1 = .removedStale ↔
      checkStaleLock obs.procFile alive = .stale) ∧
    (checkStaleLock obs.procFile alive = .fresh →
      (obs.elapsed ≤ timeout →
        lockStep obs alive timeout d = (.slept d, min (2 * d) 1000)) ∧
      (timeout < obs.elapsed → (lockStep obs alive timeout d).1 = .timedOut)) ∧
    (∀ (trace : List LockObs) (k : ℕ), k < (lock alive timeout trace).2.length →
      (lock alive timeout trace).2.get? k =
        some (min ((10 : ℚ) * 2 ^ k) 1000)) := by
  refine ⟨?_, ?_, ?_, ?_⟩
  · intro r
    cases r with
    | missing => simp [checkStaleLock]
    | readErr =>
      simp only [checkStaleLock]
      constructor
      · intro h; cases h
      · rintro (h | h | ⟨s, h, _⟩ | ⟨s, pid, h, _⟩) <;> cases h
    | content s =>
      by_cases hs : s = ""
      · subst hs
        simp [checkStaleLock]
      · simp only [checkStaleLock, if_neg hs]
        cases ha : atoi (stripTrailingNewline s) with
        | none =>
          constructor
          · intro _
            exact Or.inr (Or.inr (Or.inl ⟨s, rfl, hs, ha⟩))
          · intro _; rfl
        | some pid =>
          cases hal : alive pid with
          | false =>
            constructor
            · intro _
              exact Or.inr (Or.inr (Or.inr ⟨s, pid, rfl, hs, ha, hal⟩))
            · intro _
              simp [hal]
          | true =>
            simp only [hal, if_true]
            constructor
            · intro h; cases h
            · rintro (h | h | ⟨s', h, hs', ha'⟩ | ⟨s', pid', h, hs', ha', hal'⟩)
              · cases h
              · cases h; exact absurd rfl hs
              · cases h; rw [ha] at ha'; cases ha'
              · cases h
                rw [ha] at ha'
                cases ha'
                rw [hal] at hal'
                cases hal'
  · rcases obs with ⟨mk, pf, el⟩
    simp only at hm
    subst hm
    simp only [lockStep]
    cases hc : checkStaleLock pf alive
    · simp
    · dsimp only
      split_ifs
      · simp
      · simp
    · simp
  · intro hfresh
    rcases obs with ⟨mk, pf, el⟩
    simp only at hm
    subst hm
    simp only at hfresh
    constructor
    · intro hel
      simp only [lockStep, hfresh]
      rw [if_neg (not_lt.mpr hel)]
    · intro hel
      simp only [lockStep, hfresh]
      rw [if_pos hel]
  · intro trace k hk
    have h10 : (10 : ℚ) = min ((10 : ℚ) * 2 ^ 0) 1000 := by norm_num
    unfold lock at hk ⊢
    rw [h10] at hk ⊢
    rcases lockRun_sleeps alive timeout trace 0 k with h | h
    · simpa using h
    · exfalso
      have := List.get?_eq_none.mp h
      omega

/-- C8 witness: a run that reclaims a dead owner's lock, backs off once
against a live owner, then acquires; the single sleep lasts 10 ms. -/
theorem c8_witness :
    lock (fun pid => pid = 7) 600000
      [⟨.eexist, .content "99\n", 0⟩, ⟨.eexist, .content "7\n", 5⟩,
       ⟨.ok, .missing, 10⟩] = (.acquired, [10]) ∧
    ((lockStep ⟨.eexist, .content "99\n", 0⟩ (fun pid => pid = 7)
      600000 10).1 = .removedStale ↔
      checkStaleLock (.content "99\n") (fun pid => pid = 7) = .stale) := by
  constructor
  · decide
  · exact (c8_lock_stale_removal_and_backoff ⟨.eexist, .content "99\n", 0⟩
      (fun pid => pid = 7) 600000 10 rfl).2.1

end LockClaims

section WatcherClaims

/-- C10: when the principal's `BatchUpdate` fails during a flush, the events
of that flush are permanently discarded: the pending batch was emptied
before the write and is not restored on error, the last-flush timestamp is
unchanged, and only the error handler (never the event callback) runs; the
deduplicated batch was handed to the write. -/
theorem c10_flush_error_discards_events (st : WatcherState) (now : ℚ)
    (hne : st.batch ≠ []) :
    (flushBatch st false now).1.batch = [] ∧
    (flushBatch st false now).1.lastFlush = st.lastFlush ∧
    (flushBatch st false now).2.errorHandlerCalled = true ∧
    (flushBatch st false now).2.eventCallbackCalled = false ∧
    (flushBatch st false now).2.attemptedWrite =
      some (deduplicateBatch st.batch) := by
  simp [flushBatch, hne]

/-- C10 witness: the theorem applied to a one-event pending batch whose
write fails at time 7. -/
theorem c10_witness :
    (flushBatch ⟨[⟨"a.txt", "new", 0⟩], 5⟩ false 7).1.batch = [] ∧
    (flushBatch ⟨[⟨"a.txt", "new", 0⟩], 5⟩ false 7).1.lastFlush = 5 ∧
    (flushBatch ⟨[⟨"a.txt", "new", 0⟩], 5⟩ false 7).2.errorHandlerCalled =
      true ∧
    (flushBatch ⟨[⟨"a.txt", "new", 0⟩], 5⟩ false 7).2.eventCallbackCalled =
      false ∧
    (flushBatch ⟨[⟨"a.txt", "new", 0⟩], 5⟩ false 7).2.attemptedWrite =
      some (deduplicateBatch [⟨"a.txt", "new", 0⟩]) :=
  c10_flush_error_discards_events ⟨[⟨"a.txt", "new", 0⟩], 5⟩ 7 (by decide)

end WatcherClaims

section DoneLemmas

theorem consolidateStep_length : ∀ {l l' : List DoneIv},
    consolidateStep l = some l' → l'.length + 1 = l.length := by
  intro l
  induction l with
  | nil => intro l' h; simp [consolidateStep] at h
  | cons a rest ih =>
    intro l' h
    cases rest with
    | nil => simp [consolidateStep] at h
    | cons b t =>
      simp only [consolidateStep] at h
      split at h
      · cases h
        simp
      · cases hm : consolidateStep (b :: t) with
        | none => rw [hm] at h; cases h
        | some l2 =>
          rw [hm] at h
          cases h
          have := ih hm
          simp only [List.length_cons] at this ⊢
          omega

theorem consolidateStep_lohi : ∀ {l l' : List DoneIv},
    (∀ iv ∈ l, iv.lo ≤ iv.hi) → consolidateStep l = some l' →
    ∀ iv ∈ l', iv.lo ≤ iv.hi := by
  intro l
  induction l with
  | nil => intro l' _ h; simp [consolidateStep] at h
  | cons a rest ih =>
    intro l' hle h
    cases rest with
    | nil => simp [consolidateStep] at h
    | cons b t =>
      simp only [consolidateStep] at h
      split at h
      · cases h
        intro iv hiv
        rcases List.mem_cons.mp hiv with rfl | hiv
        · simp only
          calc min a.lo b.lo ≤ a.lo := min_le_left _ _
          _ ≤ a.hi := hle a (by simp)
          _ ≤ max a.hi b.hi := le_max_left _ _
        · exact hle iv (List.mem_cons_of_mem _ (List.mem_cons_of_mem _ hiv))
      · cases hm : consolidateStep (b :: t) with
        | none => rw [hm] at h; cases h
        | some l2 =>
          rw [hm] at h
          cases h
          intro iv hiv
          rcases List.mem_cons.mp hiv with rfl | hiv
          · exact hle iv (by simp)
          · exact ih (fun x hx => hle x (List.mem_cons_of_mem _ hx)) hm iv hiv

theorem consolidateStep_none_chain : ∀ {l : List DoneIv},
    consolidateStep l = none → List.Chain' (fun a b => b.hi < a.lo) l := by
  intro l
  induction l with
  | nil => intro _; simp
  | cons a rest ih =>
    intro h
    cases rest with
    | nil => simp
    | cons b t =>
      simp only [consolidateStep] at h
      split at h
      · cases h
      · rename_i hab
        cases hm : consolidateStep (b :: t) with
        | some l2 => rw [hm] at h; cases h
        | none =>
          refine List.chain'_cons.mpr ⟨not_le.mp hab, ih hm⟩

theorem consolidateLoop_lohi : ∀ (fuel : ℕ) (l : List DoneIv),
    (∀ iv ∈ l, iv.lo ≤ iv.hi) →
    ∀ iv ∈ consolidateLoop fuel l, iv.lo ≤ iv.hi := by
  intro fuel
  induction fuel with
  | zero => intro l h; simpa [consolidateLoop] using h
  | succ n ih =>
    intro l h
    simp only [consolidateLoop]
    cases hm : consolidateStep l with
    | none => simpa using h
    | some l' => exact ih l' (consolidateStep_lohi h hm)

theorem consolidateLoop_fix : ∀ (fuel : ℕ) (l : List DoneIv),
    l.length ≤ fuel → consolidateStep (consolidateLoop fuel l) = none := by
  intro fuel
  induction fuel with
  | zero =>
    intro l h
    have : l = [] := List.length_eq_zero.mp (Nat.le_zero.mp h)
    subst this
    rfl
  | succ n ih =>
    intro l h
    simp only [consolidateLoop]
    cases hm : consolidateStep l with
    | none => exact hm
    | some l' =>
      have hlen := consolidateStep_length hm
      exact ih l' (by omega)

theorem consolidate_inv (l : List DoneIv) (hle : ∀ iv ∈ l, iv.lo ≤ iv.hi) :
    DoneInv (consolidate l) := by
  unfold consolidate
  split
  · rename_i hlen
    refine ⟨hle, ?_⟩
    cases l with
    | nil => simp
    | cons a rest =>
      cases rest with
      | nil => simp
      | cons b t => simp at hlen
  · refine ⟨consolidateLoop_lohi _ _ hle, ?_⟩
    exact consolidateStep_none_chain (consolidateLoop_fix l.length l (le_refl _))

theorem leftCond_true {e : Epoch} {lE : Option Epoch} {iv : DoneIv}
    (h : leftCond e lE iv = true) : e ≤ iv.lo ∧ iv.lo ≤ iv.hi := by
  cases lE with
  | none => simp [leftCond] at h
  | some x =>
    simp only [leftCond, decide_eq_true_eq] at h
    exact ⟨h.2.2, h.1.trans h.2.1⟩

theorem rightCond_true {e : Epoch} {rE : Option Epoch} {iv : DoneIv}
    (h : rightCond e rE iv = true) : iv.hi ≤ e ∧ iv.lo ≤ iv.hi := by
  cases rE with
  | none => simp [rightCond] at h
  | some x =>
    simp only [rightCond, decide_eq_true_eq] at h
    exact ⟨h.2.2, h.2.1.trans h.1⟩

theorem registerExtend_fix (e : Epoch) (lE rE : Option Epoch) :
    ∀ (l : List DoneIv) (reg : ℕ),
      reg ≤ (registerExtend e lE rE l reg).2 ∧
      ((registerExtend e lE rE l reg).2 = reg → (registerExtend e lE rE l reg).1 = l) := by
  intro l
  induction l with
  | nil => intro reg; simp [registerExtend]
  | cons iv rest ih =>
    intro reg
    simp only [registerExtend]
    cases hc1 : leftCond e lE iv <;> cases hc2 : rightCond e rE iv <;>
      simp only [if_true, if_false, Bool.false_eq_true, ite_true, ite_false,
        Nat.add_zero]
    · split_ifs with h2
      · exact ⟨le_refl _, fun _ => by rfl⟩
      · refine ⟨(ih reg).1, fun hq => ?_⟩
        have := (ih reg).2 hq
        simp [this]
    · split_ifs with h2
      · exact ⟨Nat.le_add_right _ _, fun hq => by omega⟩
      · refine ⟨le_trans (Nat.le_add_right _ _) (ih (reg + 1)).1, fun hq => ?_⟩
        have := (ih (reg + 1)).1
        omega
    · split_ifs with h2
      · exact ⟨Nat.le_add_right _ _, fun hq => by omega⟩
      · refine ⟨le_trans (Nat.le_add_right _ _) (ih (reg + 1)).1, fun hq => ?_⟩
        have := (ih (reg + 1)).1
        omega
    · split_ifs with h2
      · exact ⟨le_trans (Nat.le_add_right _ _) (Nat.le_add_right _ _),
          fun hq => by omega⟩
      · refine ⟨le_trans (le_trans (Nat.le_add_right _ _) (Nat.le_add_right _ _))
          (ih (reg + 1 + 1)).1, fun hq => ?_⟩
        have := (ih (reg + 1 + 1)).1
        omega

theorem registerExtend_lohi (e : Epoch) (lE rE : Option Epoch) :
    ∀ (l : List DoneIv) (reg : ℕ), (∀ iv ∈ l, iv.lo ≤ iv.hi) →
      ∀ iv ∈ (registerExtend e lE rE l reg).1, iv.lo ≤ iv.hi := by
  intro l
  induction l with
  | nil => intro reg _; simp [registerExtend]
  | cons iv rest ih =>
    intro reg hle
    have hrest : ∀ y ∈ rest, y.lo ≤ y.hi :=
      fun y hy => hle y (List.mem_cons_of_mem _ hy)
    simp only [registerExtend]
    cases hc1 : leftCond e lE iv <;> cases hc2 : rightCond e rE iv <;>
      simp only [if_true, if_false, Bool.false_eq_true, ite_true, ite_false,
        Nat.add_zero]
    · split_ifs with h2 <;> intro x hx <;> rcases List.mem_cons.1 hx with hx | hx
      · subst hx; exact hle iv (List.mem_cons_self _ _)
      · exact hle x (List.mem_cons_of_mem _ hx)
      · subst hx; exact hle iv (List.mem_cons_self _ _)
      · exact ih _ hrest x hx
    · split_ifs with h2 <;> intro x hx <;> rcases List.mem_cons.1 hx with hx | hx
      · subst hx; exact (rightCond_true hc2).2.trans (rightCond_true hc2).1
      · exact hle x (List.mem_cons_of_mem _ hx)
      · subst hx; exact (rightCond_true hc2).2.trans (rightCond_true hc2).1
      · exact ih _ hrest x hx
    · split_ifs with h2 <;> intro x hx <;> rcases List.mem_cons.1 hx with hx | hx
      · subst hx; exact (leftCond_true hc1).1.trans (leftCond_true hc1).2
      · exact hle x (List.mem_cons_of_mem _ hx)
      · subst hx; exact (leftCond_true hc1).1.trans (leftCond_true hc1).2
      · exact ih _ hrest x hx
    · split_ifs with h2 <;> intro x hx <;> rcases List.mem_cons.1 hx with hx | hx
      · subst hx; exact le_refl e
      · exact hle x (List.mem_cons_of_mem _ hx)
      · subst hx; exact le_refl e
      · exact ih _ hrest x hx

theorem registerExtend_bound (e : Epoch) (lE rE : Option Epoch) :
    ∀ (l : List DoneIv) (reg : ℕ), coveredUnlocked e l = false → reg ≤ 1 →
      (registerExtend e lE rE l reg).2 ≤ 2 := by
  intro l
  induction l with
  | nil => intro reg _ hreg; simp [registerExtend]; omega
  | cons iv rest ih =>
    intro reg hcov hreg
    have hcov' : ¬(e ≤ iv.hi ∧ iv.lo ≤ e) ∧ coveredUnlocked e rest = false := by
      simp only [coveredUnlocked, List.any_cons, Bool.or_eq_false_iff,
        Bool.and_eq_false_iff] at hcov ⊢
      constructor
      · intro hb
        rcases hcov.1 with h | h <;> simp [decide_eq_true_eq] at h
        · exact absurd hb.1 (not_le.2 h)
        · exact absurd hb.2 (not_le.2 h)
      · exact hcov.2
    have hnot : ¬(leftCond e lE iv = true ∧ rightCond e rE iv = true) := by
      intro hb
      have h1 := leftCond_true hb.1
      have h2 := rightCond_true hb.2
      exact hcov'.1 ⟨h1.1.trans h1.2, h2.2.trans h2.1⟩
    simp only [registerExtend]
    cases hc1 : leftCond e lE iv <;> cases hc2 : rightCond e rE iv <;>
      simp only [if_true, if_false, Bool.false_eq_true, ite_true, ite_false,
        Nat.add_zero]
    · split_ifs with h2
      · omega
      · exact ih reg hcov'.2 hreg
    · split_ifs with h2
      · omega
      · exact ih (reg + 1) hcov'.2 (by omega)
    · split_ifs with h2
      · omega
      · exact ih (reg + 1) hcov'.2 (by omega)
    · exact absurd ⟨hc1, hc2⟩ hnot

theorem mem_insertInterval (e : Epoch) :
    ∀ (l : List DoneIv), ∀ x ∈ insertInterval e l, x = ⟨e, e⟩ ∨ x ∈ l := by
  intro l
  induction l with
  | nil => simp [insertInterval]
  | cons iv rest ih =>
    intro x hx
    simp only [insertInterval] at hx
    split_ifs at hx with h
    · rcases List.mem_cons.1 hx with hx | hx
      · exact Or.inl hx
      · exact Or.inr hx
    · rcases List.mem_cons.1 hx with hx | hx
      · exact Or.inr (by simp [hx])
      · rcases ih x hx with hx | hx
        · exact Or.inl hx
        · exact Or.inr (List.mem_cons_of_mem _ hx)

theorem insertInterval_head (e : Epoch) :
    ∀ (l : List DoneIv), (insertInterval e l).head? = some ⟨e, e⟩ ∨
      (insertInterval e l).head? = l.head? := by
  intro l
  cases l with
  | nil => simp [insertInterval]
  | cons iv rest =>
    simp only [insertInterval]
    split_ifs with h
    · simp
    · simp

theorem insertInterval_inv (e : Epoch) :
    ∀ (l : List DoneIv), DoneInv l → coveredUnlocked e l = false →
      DoneInv (insertInterval e l) := by
  intro l
  induction l with
  | nil =>
    intro _ _
    refine ⟨?_, ?_⟩
    · intro iv hiv
      simp [insertInterval] at hiv
      simp [hiv]
    · simp [insertInterval]
  | cons iv rest ih =>
    intro hinv hcov
    have hcons : ¬(e ≤ iv.hi ∧ iv.lo ≤ e) ∧ coveredUnlocked e rest = false := by
      simp only [coveredUnlocked, List.any_cons, Bool.or_eq_false_iff,
        Bool.and_eq_false_iff] at hcov ⊢
      constructor
      · intro hb
        rcases hcov.1 with h | h <;> simp [decide_eq_true_eq] at h
        · exact absurd hb.1 (not_le.2 h)
        · exact absurd hb.2 (not_le.2 h)
      · exact hcov.2
    have hrest_inv : DoneInv rest :=
      ⟨fun y hy => hinv.1 y (List.mem_cons_of_mem _ hy),
        (List.chain'_cons'.1 hinv.2).2⟩
    simp only [insertInterval]
    split_ifs with h
    · refine ⟨?_, ?_⟩
      · intro x hx
        rcases List.mem_cons.1 hx with hx | hx
        · simp [hx]
        · exact hinv.1 x hx
      · exact List.chain'_cons.2 ⟨h, hinv.2⟩
    · have hlt : e < iv.lo := by
        rcases lt_or_le iv.lo e with hl | hl
        · exact absurd ⟨le_of_not_lt h, le_of_lt hl⟩ hcons.1
        · rcases lt_or_le e iv.lo with hl2 | hl2
          · exact hl2
          · exact absurd ⟨le_of_not_lt h, hl2⟩ hcons.1
      refine ⟨?_, ?_⟩
      · intro x hx
        rcases List.mem_cons.1 hx with hx | hx
        · rw [hx]; exact hinv.1 iv (List.mem_cons_self _ _)
        · rcases mem_insertInterval e rest x hx with hx | hx
          · simp [hx]
          · exact hinv.1 x (List.mem_cons_of_mem _ hx)
      · refine List.chain'_cons'.2 ⟨?_, (ih hrest_inv hcons.2).2⟩
        intro y hy
        rcases insertInterval_head e rest with hh | hh
        · rw [hh] at hy
          simp only [Option.mem_def, Option.some.injEq] at hy
          subst hy
          exact hlt
        · rw [hh] at hy
          exact (List.chain'_cons'.1 hinv.2).1 y hy

theorem registerOne_inv (events : List Event) (i : ℤ) {l : List DoneIv}
    (h : DoneInv l) : DoneInv (registerOne events i l) := by
  unfold registerOne
  by_cases hg : i < 0 ∨ (events.length : ℤ) ≤ i
  · rw [if_pos hg]; exact h
  rw [if_neg hg]
  cases hget : events.get? i.toNat with
  | none => exact h
  | some ev =>
    dsimp only
    by_cases hcov : coveredUnlocked ev.epoch l = true
    · rw [if_pos hcov]; exact h
    rw [if_neg hcov]
    by_cases hnil : l = []
    · rw [if_pos hnil]
      exact ⟨by simp, by simp⟩
    rw [if_neg hnil]
    have hcov' : coveredUnlocked ev.epoch l = false := by
      simpa using hcov
    generalize (if 0 < i then (events.get? (i - 1).toNat).map Event.epoch
      else none) = lE
    generalize (if i < (events.length : ℤ) - 1 then
      (events.get? (i + 1).toNat).map Event.epoch else none) = rE
    split_ifs with h2 h1
    · exact consolidate_inv _ (registerExtend_lohi _ _ _ l 0 h.1)
    · exact consolidate_inv _ (registerExtend_lohi _ _ _ l 0 h.1)
    · have hb := registerExtend_bound ev.epoch lE rE l 0 hcov' (by omega)
      have h0 : (registerExtend ev.epoch lE rE l 0).2 = 0 := by omega
      rw [(registerExtend_fix ev.epoch lE rE l 0).2 h0]
      exact insertInterval_inv ev.epoch l h hcov'

theorem foldl_registerOne_inv (events : List Event) :
    ∀ (idxs : List ℤ) (l : List DoneIv), DoneInv l →
      DoneInv (idxs.foldl (fun l i => registerOne events i l) l) := by
  intro idxs
  induction idxs with
  | nil => intro l h; simpa using h
  | cons i is ih =>
    intro l h
    simp only [List.foldl_cons]
    exact ih _ (registerOne_inv events i h)

theorem doneRegister_inv (events : List Event) (indices : Option (List ℤ))
    {l : List DoneIv} (h : DoneInv l) : DoneInv (doneRegister events indices l) := by
  unfold doneRegister
  exact foldl_registerOne_inv events _ l h

theorem mergeOneFind_lohi (oiv : DoneIv) (ho : oiv.lo ≤ oiv.hi) :
    ∀ (l : List DoneIv), (∀ iv ∈ l, iv.lo ≤ iv.hi) →
      ∀ l', mergeOneFind oiv l = some l' → ∀ iv ∈ l', iv.lo ≤ iv.hi := by
  intro l
  induction l with
  | nil => intro _ l' hl'; simp [mergeOneFind] at hl'
  | cons iv rest ih =>
    intro hle l' hl'
    simp only [mergeOneFind] at hl'
    split_ifs at hl' with hcnd
    · injection hl' with hl'
      subst hl'
      intro x hx
      rcases List.mem_cons.1 hx with hx | hx
      · rw [hx]
        exact le_trans (min_le_left _ _) (le_trans ho (le_max_left _ _))
      · exact hle x (List.mem_cons_of_mem _ hx)
    · cases hm : mergeOneFind oiv rest with
      | none => rw [hm] at hl'; exact absurd hl' (by simp)
      | some l2 =>
        rw [hm] at hl'
        injection hl' with hl'
        subst hl'
        intro x hx
        rcases List.mem_cons.1 hx with hx | hx
        · rw [hx]; exact hle iv (List.mem_cons_self _ _)
        · exact ih (fun y hy => hle y (List.mem_cons_of_mem _ hy)) l2 hm x hx

theorem mem_mergeInsertPosLoop (oiv : DoneIv) :
    ∀ (l : List DoneIv), ∀ x ∈ mergeInsertPosLoop oiv l, x = oiv ∨ x ∈ l := by
  intro l
  induction l with
  | nil => simp [mergeInsertPosLoop]
  | cons iv rest ih =>
    intro x hx
    simp only [mergeInsertPosLoop] at hx
    split_ifs at hx with h1 h2
    · rcases List.mem_cons.1 hx with hx | hx
      · exact Or.inl hx
      · exact Or.inr hx
    · rcases List.mem_cons.1 hx with hx | hx
      · exact Or.inr (by simp [hx])
      · rcases List.mem_cons.1 hx with hx | hx
        · exact Or.inl hx
        · exact Or.inr (List.mem_cons_of_mem _ hx)
    · rcases List.mem_cons.1 hx with hx | hx
      · exact Or.inr (by simp [hx])
      · rcases ih x hx with hx | hx
        · exact Or.inl hx
        · exact Or.inr (List.mem_cons_of_mem _ hx)

theorem mergeOneInterval_inv {l : List DoneIv} (oiv : DoneIv)
    (hl : ∀ iv ∈ l, iv.lo ≤ iv.hi) (ho : oiv.lo ≤ oiv.hi) :
    DoneInv (mergeOneInterval l oiv) := by
  unfold mergeOneInterval
  split_ifs with hnil
  · refine ⟨?_, by simp⟩
    intro x hx
    simp at hx
    rw [hx]
    exact ho
  · cases hf : mergeOneFind oiv l with
    | some merged =>
      exact consolidate_inv _ (mergeOneFind_lohi oiv ho l hl merged hf)
    | none =>
      refine consolidate_inv _ ?_
      intro x hx
      rcases mem_mergeInsertPosLoop oiv l x hx with hx | hx
      · rw [hx]; exact ho
      · exact hl x hx

theorem doneMerge_inv :
    ∀ (other : List DoneIv) {l : List DoneIv}, DoneInv l →
      (∀ iv ∈ other, iv.lo ≤ iv.hi) → DoneInv (doneMerge l other) := by
  intro other
  induction other with
  | nil => intro l h _; simpa [doneMerge] using h
  | cons oiv os ih =>
    intro l h hov
    have hstep : DoneInv (mergeOneInterval l oiv) :=
      mergeOneInterval_inv oiv h.1 (hov oiv (List.mem_cons_self _ _))
    have : doneMerge l (oiv :: os) = doneMerge (mergeOneInterval l oiv) os := rfl
    rw [this]
    exact ih hstep (fun y hy => hov y (List.mem_cons_of_mem _ hy))

theorem doneReach_inv : ∀ {l : List DoneIv}, DoneReach l → DoneInv l := by
  intro l h
  induction h with
  | nil => exact ⟨by simp, by simp⟩
  | register events indices h ih => exact doneRegister_inv events indices ih
  | merge h1 h2 ih1 ih2 => exact doneMerge_inv _ ih1 ih2.1
  | reset h ih => exact ⟨by simp, by simp⟩

theorem chain_sep_head :
    ∀ (l : List DoneIv) (a : DoneIv), (∀ iv ∈ l, iv.lo ≤ iv.hi) →
      List.Chain' (fun x y => y.hi < x.lo) (a :: l) → ∀ b ∈ l, b.hi < a.lo := by
  intro l
  induction l with
  | nil => intro a _ _ b hb; simp at hb
  | cons c rest ih =>
    intro a hle hch b hb
    have h1 : c.hi < a.lo := (List.chain'_cons.1 hch).1
    rcases List.mem_cons.1 hb with hb | hb
    · rw [hb]; exact h1
    · have h2 : b.hi < c.lo :=
        ih c (fun y hy => hle y (List.mem_cons_of_mem _ hy))
          (List.chain'_cons.1 hch).2 b hb
      exact lt_trans (lt_of_lt_of_le h2 (hle c (List.mem_cons_self _ _))) h1

theorem chain_sep_pairwise :
    ∀ (l : List DoneIv), (∀ iv ∈ l, iv.lo ≤ iv.hi) →
      List.Chain' (fun x y => y.hi < x.lo) l →
      List.Pairwise (fun x y => y.hi < x.lo ∧ y.hi < x.hi) l := by
  intro l
  induction l with
  | nil => intro _ _; exact List.Pairwise.nil
  | cons a rest ih =>
    intro hle hch
    refine List.pairwise_cons.2 ⟨?_, ?_⟩
    · intro b hb
      have h1 : b.hi < a.lo :=
        chain_sep_head rest a (fun y hy => hle y (List.mem_cons_of_mem _ hy))
          hch b hb
      exact ⟨h1, lt_of_lt_of_le h1 (hle a (List.mem_cons_self _ _))⟩
    · exact ih (fun y hy => hle y (List.mem_cons_of_mem _ hy))
        (List.Chain'.tail hch)

end DoneLemmas

/-- C9: every interval set reachable by Done-tracker operations — `Register`
with any events and indices, `Merge` with another reachable tracker, and
`Reset`, starting from the empty tracker — contains no two intervals that
overlap or touch (each later interval ends strictly below where the earlier
one starts) and is sorted strictly descending by the `hi` endpoint, with
every interval well-formed (`lo ≤ hi`). -/
theorem c9_done_tracker_invariant {l : List Rrr.DoneIv} (h : Rrr.DoneReach l) :
    List.Pairwise (fun x y => y.hi < x.lo ∧ y.hi < x.hi) l ∧
      ∀ iv ∈ l, iv.lo ≤ iv.hi := by
  have hinv : Rrr.DoneInv l := Rrr.doneReach_inv h
  exact ⟨Rrr.chain_sep_pairwise l hinv.1 hinv.2, hinv.1⟩

/-- Witness for C9: registering two separated events on a fresh tracker and
merging an already-registered tracker yields a separated, descending set. -/
theorem c9_witness :
    (List.Pairwise (fun x y => y.hi < x.lo ∧ y.hi < x.hi)
      (Rrr.doneMerge
        (Rrr.doneRegister [⟨10, "a", "new"⟩, ⟨5, "b", "new"⟩] none [])
        (Rrr.doneRegister [⟨7, "c", "new"⟩] (some [0]) [])) ∧
      ∀ iv ∈ Rrr.doneMerge
        (Rrr.doneRegister [⟨10, "a", "new"⟩, ⟨5, "b", "new"⟩] none [])
        (Rrr.doneRegister [⟨7, "c", "new"⟩] (some [0]) []),
        iv.lo ≤ iv.hi) :=
  c9_done_tracker_invariant
    (Rrr.DoneReach.merge
      (Rrr.DoneReach.register [⟨10, "a", "new"⟩, ⟨5, "b", "new"⟩] none
        Rrr.DoneReach.nil)
      (Rrr.DoneReach.register [⟨7, "c", "new"⟩] (some [0]) Rrr.DoneReach.nil))

end Rrr
